import Mathlib

/-!
Verification development for the text-similarity core of `similarity_detector.py`
(class `SimilarityDetector`).

Shallow-embedding conventions used throughout this file:

* Python strings are Lean `String`s / `List Char`s.  The regex character
  classes `\w` and `\s` and `str.lower` are modeled over their ASCII
  semantics (the inputs exercised by the program and by all concrete
  inputs below are ASCII).
* Python `float` arithmetic is idealized as exact arithmetic: the purely
  rational similarity signals live in `ℚ`, and everything touched by
  scikit-learn's natural-logarithm idf weights and square-root norms
  lives in `ℝ`.
* `difflib.SequenceMatcher(None, a, b)` is embedded with its real
  algorithm: the `b2j`/`j2len` dynamic program of `find_longest_match`
  (including the autojunk removal of "popular" elements of `b` when
  `len(b) >= 200`), the two non-junk extension loops, and the recursive
  block decomposition of `get_matching_blocks`.  Because the matcher is
  constructed with `isjunk=None`, the junk set `bjunk` is empty, so the
  two junk extension loops of CPython's `find_longest_match` never
  execute and are therefore not part of the embedding.
* `sklearn.TfidfVectorizer(stop_words='english', ngram_range=(1,2),
  max_features=1000, lowercase=True)` on a two-document corpus is
  embedded with its real pipeline: lowercase, `\b\w\w+\b` tokenization,
  stop-word removal, unigram+bigram generation, alphabetically sorted
  vocabulary, the `max_features` cap by corpus term count, smooth idf
  `ln((1+n)/(1+df)) + 1` with `n = 2`, and zero-safe cosine similarity.
  numpy's tie order inside the `max_features` cap is unspecified
  (unstable argsort); the embedding picks the deterministic
  count-descending/alphabetical order.  No claim below depends on which
  tied terms survive the cap.
* The `hashlib.md5` content hash of the fallback vector is embedded as
  a full MD5 implementation over the UTF-8 bytes of the text.
-/

namespace SimDetect

/-- Python regex `\s` (ASCII range): space, tab, LF, VT, FF, CR. -/
def isPySpace (c : Char) : Bool :=
  c.toNat = 32 || (9 ≤ c.toNat && c.toNat ≤ 13)

/-- Python regex `\w` (ASCII range): letters, digits, underscore. -/
def isPyWord (c : Char) : Bool :=
  (97 ≤ c.toNat && c.toNat ≤ 122) || (65 ≤ c.toNat && c.toNat ≤ 90) ||
    (48 ≤ c.toNat && c.toNat ≤ 57) || c.toNat = 95

/-- Python `str.lower` on a single character (ASCII range). -/
def lowerChar (c : Char) : Char :=
  if 65 ≤ c.toNat ∧ c.toNat ≤ 90 then Char.ofNat (c.toNat + 32) else c

/-- Helper for `splitRuns`: `acc` holds the reversed current run. -/
def splitRunsAux (sep : Char → Bool) : List Char → List Char → List (List Char)
  | [], acc => if acc.isEmpty then [] else [acc.reverse]
  | c :: t, acc =>
    if sep c then
      if acc.isEmpty then splitRunsAux sep t [] else acc.reverse :: splitRunsAux sep t []
    else splitRunsAux sep t (c :: acc)

/-- Maximal runs of non-separator characters, in order; empty runs are
dropped.  With `sep := isPySpace` this is Python's `str.split()`. -/
def splitRuns (sep : Char → Bool) (l : List Char) : List (List Char) :=
  splitRunsAux sep l []

/-- Helper for `collapseWs`: the flag records whether the previous
character was whitespace (so the current run is already collapsed). -/
def collapseWsAux : Bool → List Char → List Char
  | _, [] => []
  | prev, c :: t =>
    if isPySpace c then
      if prev then collapseWsAux true t else ' ' :: collapseWsAux true t
    else c :: collapseWsAux false t

/-- Python `re.sub(r'\s+', ' ', ·)`: each maximal whitespace run becomes
one space. -/
def collapseWs (l : List Char) : List Char :=
  collapseWsAux false l

/-- One character of `re.sub(r'[^\w\s]', ' ', ·)`. -/
def replChar (c : Char) : Char :=
  if isPyWord c || isPySpace c then c else ' '

/-- Python `str.strip()` (whitespace strip on both ends). -/
def stripChars (l : List Char) : List Char :=
  ((l.dropWhile isPySpace).reverse.dropWhile isPySpace).reverse

/-- Python `' '.join` on a list of words. -/
def joinWords : List (List Char) → List Char
  | [] => []
  | [w] => w
  | w :: ws => w ++ ' ' :: joinWords ws

/-- The stop set `common_words` of `normalize_text` (line 111 of the
source). -/
def common_words : List (List Char) :=
  ["error".data, "issue".data, "bug".data, "problem".data, "fix".data, "resolve".data]

/-- The synonym table `word_mapping` of `normalize_text` (lines 116-126). -/
def word_mapping : List (List Char × List Char) :=
  [("navigator".data, "navigation".data),
   ("navigate".data, "navigation".data),
   ("navigating".data, "navigation".data),
   ("designer".data, "design".data),
   ("designing".data, "design".data),
   ("manager".data, "manage".data),
   ("managing".data, "manage".data),
   ("configuration".data, "config".data),
   ("configure".data, "config".data)]

/-- Python `word_mapping[word] if word in word_mapping else word`. -/
def applyMapping (w : List Char) : List Char :=
  match word_mapping.find? (fun p => p.1 == w) with
  | some p => p.2
  | none => w

/-- The token list produced inside `normalize_text`: lowercase, replace
non-word/non-space by space, collapse whitespace, split, drop stop
words, canonicalize synonyms (lines 101-133). -/
def normalizeTokens (l : List Char) : List (List Char) :=
  ((splitRuns isPySpace (collapseWs ((l.map lowerChar).map replChar))).filter
      (fun w => decide (w ∉ common_words))).map applyMapping

/-- `SimilarityDetector.normalize_text` (lines 96-135).  Note: the
source has no markup-tag stripping step here; tags are stripped from
descriptions in the callers, before `normalize_text` runs. -/
def normalize_text (s : String) : String :=
  if s = "" then ""
  else ⟨stripChars (joinWords (normalizeTokens s.data))⟩

/-- Autojunk of `difflib.SequenceMatcher.__chain_b`: when `len(b) >= 200`,
characters occurring more than `len(b) // 100 + 1` times in `b` are
"popular" and removed from `b2j`, so they cannot seed a match. -/
def popularChar (b : List Char) (c : Char) : Bool :=
  decide (200 ≤ b.length) && decide (b.length / 100 + 1 < b.count c)

/-- The in-window positions `b2j[c]` visited by the inner loop of
`find_longest_match` (ascending; `j < blo` is skipped, `j >= bhi`
breaks; popular characters have no `b2j` entry). -/
def matchPositions (b : List Char) (blo bhi : ℕ) (c : Char) : List ℕ :=
  if popularChar b c then []
  else (List.range b.length).filter
    (fun j => decide (blo ≤ j) && decide (j < bhi) && decide (b.getD j '*' = c))

/-- State of the `find_longest_match` dynamic program: the `j2len` map
being built for the current row and the running best block. -/
structure FlmState where
  j2len : ℕ → ℕ
  besti : ℕ
  bestj : ℕ
  bestsize : ℕ

/-- Inner-loop body of `find_longest_match`:
`k = newj2len[j] = j2len.get(j-1, 0) + 1`, updating the best block when
`k > bestsize` (the `j2len.get(-1, 0)` lookup of Python is the `j = 0`
branch). -/
def kOf (old : ℕ → ℕ) (j : ℕ) : ℕ :=
  if j = 0 then 1 else old (j - 1) + 1

def flmInner (old : ℕ → ℕ) (i : ℕ) (st : FlmState) (j : ℕ) : FlmState :=
  let k := kOf old j
  let st' : FlmState :=
    { st with j2len := fun x => if x = j then k else st.j2len x }
  if st.bestsize < k then
    { st' with besti := i + 1 - k, bestj := j + 1 - k, bestsize := k }
  else st'

/-- Outer-loop body of `find_longest_match` for row `i`: fold the inner
loop over `b2j[a[i]]`, reading the previous row's `j2len` and starting a
fresh one (`newj2len = {}`). -/
def flmStep (a b : List Char) (blo bhi : ℕ) (st : FlmState) (i : ℕ) : FlmState :=
  let js := matchPositions b blo bhi (a.getD i '*')
  js.foldl (flmInner st.j2len i) { st with j2len := fun _ => 0 }

/-- Number of iterations of the backward extension loop of
`find_longest_match` starting at `a[p-1]`/`b[q-1]`, capped at `n`
steps (the window guards). -/
def backCount (a b : List Char) (p q n : ℕ) : ℕ :=
  ((List.range n).takeWhile
    (fun d => decide (a.getD (p - d - 1) '*' = b.getD (q - d - 1) '%'))).length

/-- Number of iterations of the forward extension loop of
`find_longest_match` starting at `a[p]`/`b[q]`, capped at `n` steps
(the window guards). -/
def fwdCount (a b : List Char) (p q n : ℕ) : ℕ :=
  ((List.range n).takeWhile
    (fun d => decide (a.getD (p + d) '*' = b.getD (q + d) '%'))).length

/-- `SequenceMatcher.find_longest_match(alo, ahi, blo, bhi)` for the
`isjunk=None` matcher: the dynamic program, then the two non-junk
extension loops (backwards then forwards over equal characters).  Since
`bjunk` is empty for `isjunk=None`, the `not isbjunk(...)` guards are
vacuous and the two junk extension loops never run. -/
def findLongestMatch (a b : List Char) (alo ahi blo bhi : ℕ) : ℕ × ℕ × ℕ :=
  let st0 : FlmState := ⟨fun _ => 0, alo, blo, 0⟩
  let st := (List.range' alo (ahi - alo)).foldl (flmStep a b blo bhi) st0
  let d1 := backCount a b st.besti st.bestj (min (st.besti - alo) (st.bestj - blo))
  let bi := st.besti - d1
  let bj := st.bestj - d1
  let sz := st.bestsize + d1
  let d2 := fwdCount a b (bi + sz) (bj + sz) (min (ahi - (bi + sz)) (bhi - (bj + sz)))
  (bi, bj, sz + d2)

/-- Invariant of the `find_longest_match` dynamic program used for the
window-bounds lemmas: the best block starts inside the window and ends
by position `iB` on the `a` side and by `bhi` on the `b` side, and the
`j2len` chains are bounded by the number of processed rows and by the
in-window prefix length on the `b` side. -/
def FlmBInv (alo blo bhi iB : ℕ) (st : FlmState) : Prop :=
  alo ≤ st.besti ∧ blo ≤ st.bestj ∧ st.besti + st.bestsize ≤ iB ∧
    st.bestj + st.bestsize ≤ bhi ∧ (∀ j, st.j2len j ≤ iB - alo) ∧
    (∀ j, st.j2len j ≤ j + 1 - blo)

/-- Length of the maximal run of non-popular positions of `x` ending at
`j` inside the window `[lo, hi)` (proof scaffolding for the
identical-input lemmas: on identical inputs the `j2len` chains of the
dynamic program are bounded by these runs). -/
def ruW (x : List Char) (lo hi : ℕ) : ℕ → ℕ
  | 0 => if lo = 0 ∧ 0 < hi ∧ popularChar x (x.getD 0 '*') = false then 1 else 0
  | j + 1 =>
    if lo ≤ j + 1 ∧ j + 1 < hi ∧ popularChar x (x.getD (j + 1) '*') = false then
      ruW x lo hi j + 1
    else 0

/-- Invariant of the `find_longest_match` dynamic program on identical
aligned windows, after the rows `[lo, iN)` have been processed: the
best block is diagonal and dominates every non-popular run seen so far,
and the `j2len` chains are bounded by the runs. -/
def FlmDInv (x : List Char) (lo hi iN : ℕ) (st : FlmState) : Prop :=
  st.besti = st.bestj ∧ lo ≤ st.besti ∧ st.besti + st.bestsize ≤ iN ∧
    (∀ t, t < iN → ruW x lo hi t ≤ st.bestsize) ∧
    (∀ j, st.j2len j ≤ ruW x lo hi j) ∧
    (∀ j, st.j2len j ≤ (if iN = lo then 0 else ruW x lo hi (iN - 1))) ∧
    (lo < iN → st.j2len (iN - 1) = ruW x lo hi (iN - 1))

/-- Total size of all matching blocks of `get_matching_blocks`: the
recursive decomposition around each longest match.  `fuel` dominates the
recursion depth (callers pass `|a| + |b| + 1`, far above the true
depth). -/
def matchedTotal (a b : List Char) : ℕ → ℕ → ℕ → ℕ → ℕ → ℕ
  | 0, _, _, _, _ => 0
  | fuel + 1, alo, ahi, blo, bhi =>
    let r := findLongestMatch a b alo ahi blo bhi
    if r.2.2 = 0 then 0
    else
      r.2.2 + matchedTotal a b fuel alo r.1 blo r.2.1 +
        matchedTotal a b fuel (r.1 + r.2.2) ahi (r.2.1 + r.2.2) bhi

/-- `SequenceMatcher(None, a, b).ratio()`: `2 * M / (len(a) + len(b))`,
and `1.0` when both strings are empty (`_calculate_ratio`). -/
def seqRatio (a b : List Char) : ℚ :=
  let m := matchedTotal a b (a.length + b.length + 1) 0 a.length 0 b.length
  if a.length + b.length = 0 then 1
  else (2 * m : ℚ) / (a.length + b.length)

/-- scikit-learn's frozen `ENGLISH_STOP_WORDS` (the Glasgow IR stop
list) used by `TfidfVectorizer(stop_words='english')`.  No claim below
depends on the exact contents of this fixed set; the concrete strings
appearing in counterexamples and witnesses ("ab", "abc", ...) are not
stop words. -/
def sklearnStopWords : List String :=
  ["a", "about", "above", "across", "after", "afterwards", "again", "against",
   "all", "almost", "alone", "along", "already", "also", "although", "always",
   "am", "among", "amongst", "amoungst", "amount", "an", "and", "another",
   "any", "anyhow", "anyone", "anything", "anyway", "anywhere", "are", "around",
   "as", "at", "back", "be", "became", "because", "become", "becomes",
   "becoming", "been", "before", "beforehand", "behind", "being", "below",
   "beside", "besides", "between", "beyond", "bill", "both", "bottom", "but",
   "by", "call", "can", "cannot", "cant", "co", "con", "could", "couldnt",
   "cry", "de", "describe", "detail", "do", "done", "down", "due", "during",
   "each", "eg", "eight", "either", "eleven", "else", "elsewhere", "empty",
   "enough", "etc", "even", "ever", "every", "everyone", "everything",
   "everywhere", "except", "few", "fifteen", "fifty", "fill", "find", "fire",
   "first", "five", "for", "former", "formerly", "forty", "found", "four",
   "from", "front", "full", "further", "get", "give", "go", "had", "has",
   "hasnt", "have", "he", "hence", "her", "here", "hereafter", "hereby",
   "herein", "hereupon", "hers", "herself", "him", "himself", "his", "how",
   "however", "hundred", "i", "ie", "if", "in", "inc", "indeed", "interest",
   "into", "is", "it", "its", "itself", "keep", "last", "latter", "latterly",
   "least", "less", "ltd", "made", "many", "may", "me", "meanwhile", "might",
   "mill", "mine", "more", "moreover", "most", "mostly", "move", "much",
   "must", "my", "myself", "name", "namely", "neither", "never",
   "nevertheless", "next", "nine", "no", "nobody", "none", "noone", "nor",
   "not", "nothing", "now", "nowhere", "of", "off", "often", "on", "once",
   "one", "only", "onto", "or", "other", "others", "otherwise", "our", "ours",
   "ourselves", "out", "over", "own", "part", "per", "perhaps", "please",
   "put", "rather", "re", "same", "see", "seem", "seemed", "seeming", "seems",
   "serious", "several", "she", "should", "show", "side", "since", "sincere",
   "six", "sixty", "so", "some", "somehow", "someone", "something",
   "sometime", "sometimes", "somewhere", "still", "such", "system", "take",
   "ten", "than", "that", "the", "their", "them", "themselves", "then",
   "thence", "there", "thereafter", "thereby", "therefore", "therein",
   "thereupon", "these", "they", "thick", "thin", "third", "this", "those",
   "though", "three", "through", "throughout", "thru", "thus", "to",
   "together", "too", "top", "toward", "towards", "twelve", "twenty", "two",
   "un", "under", "until", "up", "upon", "us", "very", "via", "was", "we",
   "well", "were", "what", "whatever", "when", "whence", "whenever", "where",
   "whereafter", "whereas", "whereby", "wherein", "whereupon", "wherever",
   "whether", "which", "while", "whither", "who", "whoever", "whole", "whom",
   "whose", "why", "will", "with", "within", "without", "would", "yet", "you",
   "your", "yours", "yourself", "yourselves"]

/-- Tokens of one document under `TfidfVectorizer`'s analyzer:
lowercase, `\b\w\w+\b` (maximal word-character runs of length at least
2), then stop-word removal. -/
def sklearnTokens (s : String) : List (List Char) :=
  ((splitRuns (fun c => !isPyWord c) (s.data.map lowerChar)).filter
      (fun w => decide (2 ≤ w.length))).filter
    (fun w => decide (String.mk w ∉ sklearnStopWords))

/-- Terms of one document for `ngram_range=(1, 2)`: the stop-filtered
unigrams followed by the space-joined bigrams of consecutive surviving
tokens. -/
def sklearnTerms (s : String) : List (List Char) :=
  let toks := sklearnTokens s
  toks ++ (toks.zip toks.tail).map (fun p => p.1 ++ ' ' :: p.2)

/-- Lexicographic (code-point) order on character lists, i.e. Python
string comparison, as a Boolean total preorder for sorting. -/
def lexLe : List Char → List Char → Bool
  | [], _ => true
  | _ :: _, [] => false
  | c :: u, d :: v => if c = d then lexLe u v else decide (c < d)

/-- Insert into a sorted list, after all entries that compare
less-or-equal (so the fold below is a stable sort). -/
def insertSorted (le : α → α → Bool) (x : α) : List α → List α
  | [] => [x]
  | y :: ys => if le y x then y :: insertSorted le x ys else x :: y :: ys

/-- Stable insertion sort (elements are inserted left to right, each
after the entries that compare less-or-equal). -/
def sortList (le : α → α → Bool) (l : List α) : List α :=
  l.foldl (fun acc x => insertSorted le x acc) []

/-- The fitted vocabulary before the `max_features` cap: all distinct
terms of the two-document corpus, sorted alphabetically
(`_sort_features`). -/
def rawVocab (a b : String) : List (List Char) :=
  sortList lexLe ((sklearnTerms a ++ sklearnTerms b).dedup)

/-- Corpus-wide raw count of a term (`X.sum(axis=0)` over the
two-document corpus), the key of the `max_features` selection. -/
def corpusCount (a b : String) (t : List Char) : ℕ :=
  (sklearnTerms a).count t + (sklearnTerms b).count t

/-- The vocabulary after `max_features=1000` (`_limit_features`): when
more than 1000 distinct terms exist, keep the 1000 with the highest
corpus counts, in alphabetical order.  numpy leaves the order of tied
counts unspecified; this embedding ties alphabetically (stable sort).
No claim below depends on which tied terms survive. -/
def vocabLimited (a b : String) : List (List Char) :=
  let v := rawVocab a b
  if v.length ≤ 1000 then v
  else sortList lexLe
    ((sortList (fun u w => decide (corpusCount a b w ≤ corpusCount a b u)) v).take 1000)

/-- Document frequency of a term in the two-document corpus. -/
def dfCount (a b : String) (t : List Char) : ℕ :=
  (if t ∈ sklearnTerms a then 1 else 0) + (if t ∈ sklearnTerms b then 1 else 0)

/-- Smooth idf of `TfidfTransformer(smooth_idf=True)` for an
`n = 2`-document corpus: `ln((1 + 2) / (1 + df)) + 1`. -/
noncomputable def idf (a b : String) (t : List Char) : ℝ :=
  Real.log (3 / (1 + (dfCount a b t : ℝ))) + 1

/-- One coordinate of a document's tf-idf vector (raw term count times
idf; the l2 normalization is folded into the cosine below, which is the
same composite map). -/
noncomputable def tfidfWeight (a b doc : String) (t : List Char) : ℝ :=
  ((sklearnTerms doc).count t : ℝ) * idf a b t

/-- `cosine_similarity(tfidf_matrix[0:1], tfidf_matrix[1:2])[0][0]`:
zero-safe cosine of the two tf-idf vectors over the fitted vocabulary
(a zero vector — a document none of whose terms entered the vocabulary —
yields 0, matching sklearn's zero-norm guard; in Lean `x / 0 = 0`). -/
noncomputable def tfidfCosine (a b : String) : ℝ :=
  let V := vocabLimited a b
  (V.map (fun t => tfidfWeight a b a t * tfidfWeight a b b t)).sum /
    (Real.sqrt ((V.map (fun t => tfidfWeight a b a t ^ 2)).sum) *
      Real.sqrt ((V.map (fun t => tfidfWeight a b b t ^ 2)).sum))

/-- Method 2 of `calculate_text_similarity` (lines 145-150): the
two-document TF-IDF cosine; `fit_transform` raises on an empty
vocabulary and the bare `except` turns that into `0.0`. -/
noncomputable def tfidf_similarity (a b : String) : ℝ :=
  if rawVocab a b = [] then 0 else tfidfCosine a b

/-- `text.split()` as a finite set of words (method 3, lines 152-158). -/
def wordSet (s : String) : Finset (List Char) :=
  (splitRuns isPySpace s.data).toFinset

/-- Method 3: word-overlap Jaccard; `0.0` when both token sets are
empty. -/
def overlap_similarity (a b : String) : ℚ :=
  if wordSet a ≠ ∅ ∨ wordSet b ≠ ∅ then
    ((wordSet a ∩ wordSet b).card : ℚ) / ((wordSet a ∪ wordSet b).card : ℚ)
  else 0

/-- `get_ngrams(text, 3)` (lines 161-162): the set of sliding 3-character
windows.  `List.range (n + 1 - 3)` is Python's `range(len(text) - 3 + 1)`
(empty for `len(text) < 3`). -/
def charTrigrams (s : String) : Finset (List Char) :=
  ((List.range (s.data.length + 1 - 3)).map (fun i => (s.data.drop i).take 3)).toFinset

/-- Method 4: character-trigram Jaccard; `0.0` when both sets are
empty. -/
def ngram_similarity (a b : String) : ℚ :=
  if charTrigrams a ≠ ∅ ∨ charTrigrams b ≠ ∅ then
    ((charTrigrams a ∩ charTrigrams b).card : ℚ) /
      ((charTrigrams a ∪ charTrigrams b).card : ℚ)
  else 0

/-- `SimilarityDetector.calculate_text_similarity` (lines 137-179): the
weighted blend `0.3 * seq + 0.3 * tfidf + 0.2 * overlap + 0.2 * ngram`,
with the early return `0.0` when either input is empty. -/
noncomputable def calculate_text_similarity (text1 text2 : String) : ℝ :=
  if text1 = "" ∨ text2 = "" then 0
  else
    0.3 * ((seqRatio text1.data text2.data : ℚ) : ℝ) +
      0.3 * tfidf_similarity text1 text2 +
      0.2 * ((overlap_similarity text1 text2 : ℚ) : ℝ) +
      0.2 * ((ngram_similarity text1 text2 : ℚ) : ℝ)

/-- MD5 round constants `K[i] = floor(abs(sin(i + 1)) * 2^32)`. -/
def md5K : List ℕ :=
  [0xd76aa478, 0xe8c7b756, 0x242070db, 0xc1bdceee,
   0xf57c0faf, 0x4787c62a, 0xa8304613, 0xfd469501,
   0x698098d8, 0x8b44f7af, 0xffff5bb1, 0x895cd7be,
   0x6b901122, 0xfd987193, 0xa679438e, 0x49b40821,
   0xf61e2562, 0xc040b340, 0x265e5a51, 0xe9b6c7aa,
   0xd62f105d, 0x02441453, 0xd8a1e681, 0xe7d3fbc8,
   0x21e1cde6, 0xc33707d6, 0xf4d50d87, 0x455a14ed,
   0xa9e3e905, 0xfcefa3f8, 0x676f02d9, 0x8d2a4c8a,
   0xfffa3942, 0x8771f681, 0x6d9d6122, 0xfde5380c,
   0xa4beea44, 0x4bdecfa9, 0xf6bb4b60, 0xbebfbc70,
   0x289b7ec6, 0xeaa127fa, 0xd4ef3085, 0x04881d05,
   0xd9d4d039, 0xe6db99e5, 0x1fa27cf8, 0xc4ac5665,
   0xf4292244, 0x432aff97, 0xab9423a7, 0xfc93a039,
   0x655b59c3, 0x8f0ccc92, 0xffeff47d, 0x85845dd1,
   0x6fa87e4f, 0xfe2ce6e0, 0xa3014314, 0x4e0811a1,
   0xf7537e82, 0xbd3af235, 0x2ad7d2bb, 0xeb86d391]

/-- MD5 per-round left-rotation amounts. -/
def md5S : List ℕ :=
  [7, 12, 17, 22, 7, 12, 17, 22, 7, 12, 17, 22, 7, 12, 17, 22,
   5, 9, 14, 20, 5, 9, 14, 20, 5, 9, 14, 20, 5, 9, 14, 20,
   4, 11, 16, 23, 4, 11, 16, 23, 4, 11, 16, 23, 4, 11, 16, 23,
   6, 10, 15, 21, 6, 10, 15, 21, 6, 10, 15, 21, 6, 10, 15, 21]

/-- 32-bit left rotation (on a value below `2^32`). -/
def leftrot (x n : ℕ) : ℕ :=
  (x * 2 ^ n) % 4294967296 + x / 2 ^ (32 - n)

/-- MD5 round function for round `i` (32-bit complement is xor with
`2^32 - 1`). -/
def md5F (i b c d : ℕ) : ℕ :=
  if i < 16 then (b &&& c) ||| ((b ^^^ 4294967295) &&& d)
  else if i < 32 then (d &&& b) ||| ((d ^^^ 4294967295) &&& c)
  else if i < 48 then b ^^^ c ^^^ d
  else c ^^^ (b ||| (d ^^^ 4294967295))

/-- MD5 message-word index for round `i`. -/
def md5G (i : ℕ) : ℕ :=
  if i < 16 then i
  else if i < 32 then (5 * i + 1) % 16
  else if i < 48 then (3 * i + 5) % 16
  else (7 * i) % 16

/-- One MD5 round on the state `(a, b, c, d)`. -/
def md5Round (M : ℕ → ℕ) (st : ℕ × ℕ × ℕ × ℕ) (i : ℕ) : ℕ × ℕ × ℕ × ℕ :=
  let f := (md5F i st.2.1 st.2.2.1 st.2.2.2 + st.1 + md5K.getD i 0 + M (md5G i)) % 4294967296
  (st.2.2.2, (st.2.1 + leftrot f (md5S.getD i 0)) % 4294967296, st.2.1, st.2.2.1)

/-- Process the padded byte stream 64-byte chunk by chunk. -/
def md5Chunks : ℕ × ℕ × ℕ × ℕ → List ℕ → ℕ × ℕ × ℕ × ℕ
  | h, [] => h
  | h, c :: t =>
    let chunk := (c :: t).take 64
    let M := fun g =>
      chunk.getD (4 * g) 0 + 256 * chunk.getD (4 * g + 1) 0 +
        65536 * chunk.getD (4 * g + 2) 0 + 16777216 * chunk.getD (4 * g + 3) 0
    let r := (List.range 64).foldl (md5Round M) h
    md5Chunks
      ((h.1 + r.1) % 4294967296, (h.2.1 + r.2.1) % 4294967296,
        (h.2.2.1 + r.2.2.1) % 4294967296, (h.2.2.2 + r.2.2.2) % 4294967296)
      ((c :: t).drop 64)
termination_by _ l => l.length
decreasing_by
  all_goals simp only [List.length_cons, List.length_drop]
  omega

/-- MD5 padding: `0x80`, zeros to 56 mod 64, then the bit length as
eight little-endian bytes. -/
def md5Pad (msg : List ℕ) : List ℕ :=
  msg ++ 0x80 :: List.replicate ((119 - msg.length % 64) % 64) 0 ++
    (List.range 8).map (fun k => msg.length * 8 % 18446744073709551616 / 2 ^ (8 * k) % 256)

/-- The first 32-bit state word of the MD5 digest of a byte stream. -/
def md5A (msg : List ℕ) : ℕ :=
  (md5Chunks (0x67452301, 0xefcdab89, 0x98badcfe, 0x10325476) (md5Pad msg)).1

/-- Python `int(hashlib.md5(text.encode()).hexdigest()[:8], 16)`: the
first four digest bytes (the little-endian bytes of state word `A`)
read as a big-endian hex number. -/
def md5First8HexVal (msg : List ℕ) : ℕ :=
  let A := md5A msg
  A % 256 * 16777216 + A / 256 % 256 * 65536 + A / 65536 % 256 * 256 + A / 16777216

/-- UTF-8 bytes of a string, Python `text.encode()`. -/
def strBytes (s : String) : List ℕ :=
  s.toUTF8.toList.map (fun b => b.toNat)

/-- `SimilarityDetector._text_to_vector` (lines 55-94): clean the text,
then build `[length/1000, word count/100]`, fifty per-position
word-frequency features over the first fifty words, one MD5-derived
feature, padded/truncated to exactly 100 entries. -/
def _text_to_vector (text : String) : List ℚ :=
  let cleaned := ((text.data.map lowerChar).filter (fun c => isPyWord c || isPySpace c))
  let words := splitRuns isPySpace cleaned
  let freqFeats := (List.range 50).map (fun i =>
    if i < words.length then
      (((words.take 50).count (words.getD i []) : ℚ) / (words.length : ℚ))
    else 0)
  let hashFeat := ((md5First8HexVal (strBytes (String.mk cleaned)) % 1000 : ℕ) : ℚ) / 1000
  let v := (cleaned.length : ℚ) / 1000 :: (words.length : ℚ) / 100 :: (freqFeats ++ [hashFeat])
  if v.length < 100 then v ++ List.replicate (100 - v.length) 0 else v.take 100

/-- An issue record as consumed by `find_similar_issues`:
`issue['key']`, `issue['fields']['summary']`,
`issue['fields']['description']` (missing fields default to `""`). -/
structure Issue where
  key : String
  summary : String
  description : String
deriving Inhabited, DecidableEq

/-- `re.sub(r'<[^>]+>', '', ·)`: drop every non-overlapping leftmost
match of `<`, one or more non-`>` characters, `>`. -/
def stripTags : List Char → List Char
  | [] => []
  | c :: t =>
    if c = '<' then
      match h : t.findIdx? (fun d => d = '>') with
      | none => c :: stripTags t
      | some k => if 1 ≤ k then stripTags (t.drop (k + 1)) else c :: stripTags t
    else c :: stripTags t
termination_by l => l.length
decreasing_by
  all_goals simp only [List.length_cons, List.length_drop]
  all_goals omega

/-- The text prepared for one issue inside `find_similar_issues`
(lines 258-271): the summary, plus the tag-stripped, stripped
description when non-empty. -/
def prepareIssueText (iss : Issue) : String :=
  if iss.description ≠ "" then
    let d := String.mk (stripChars (stripTags iss.description.data))
    if d ≠ "" then iss.summary ++ " " ++ d else iss.summary
  else iss.summary

/-- The symmetric similarity matrix built in lines 275-284: zeros on
the diagonal, and for `i < j` both `(i, j)` and `(j, i)` hold
`calculate_text_similarity(texts[i], texts[j])`. -/
noncomputable def simMatrix (issues : List Issue) : ℕ → ℕ → ℝ := fun i j =>
  if i = j then 0
  else
    let texts := issues.map (fun iss => normalize_text (prepareIssueText iss))
    calculate_text_similarity (texts.getD (min i j) "") (texts.getD (max i j) "")

/-- One emitted similarity group (the per-group dict of lines
325-330). `members` records the indices of the grouped issues;
`issues` the issue records themselves, as the source stores them. -/
structure SGroup where
  issues : List Issue
  members : List ℕ
  avg_similarity : ℝ
  similarity_level : String
  threshold_used : ℝ

/-- Accumulator of one tier pass: the groups emitted so far (in
insertion order, as the Python dict preserves), the shared group
counter, and this tier's processed set. -/
structure PassState where
  groups : List (String × SGroup)
  counter : ℕ
  processed : Finset ℕ

/-- The ordered index pairs `(members[k], members[l])`, `k < l`, whose
matrix entries are averaged in lines 317-323. -/
def pairsList : List ℕ → List (ℕ × ℕ)
  | [] => []
  | x :: xs => xs.map (fun y => (x, y)) ++ pairsList xs

/-- `np.mean(similarities) if similarities else 0.0` over the pairwise
matrix entries of the members. -/
noncomputable def avgSim (M : ℕ → ℕ → ℝ) (mem : List ℕ) : ℝ :=
  let sims := (pairsList mem).map (fun p => M p.1 p.2)
  if sims = [] then 0 else sims.sum / (sims.length : ℝ)

open Classical in
/-- The candidate list of one anchor `i` (the inner `for j` loop at
lines 305-313 and its twins): the later indices, unclaimed in this
tier and by earlier tiers, whose matrix entry satisfies the tier
predicate, in index order. -/
noncomputable def tierCands (n : ℕ) (M : ℕ → ℕ → ℝ) (inTier : ℝ → Prop)
    (blocked : Finset ℕ) (st : PassState) (i : ℕ) : List ℕ :=
  (List.range n).filter
    (fun j => decide (i < j ∧ j ∉ st.processed ∧ j ∉ blocked ∧ inTier (M i j)))

/-- One anchor iteration of a tier pass (the body of each `for i` loop
at lines 299-341, 343-385, 387-429): skip an anchor already processed
in this tier or claimed by an earlier tier (`blocked`); otherwise
collect the candidate list above, and materialize a group only when at
least one match was found. -/
noncomputable def tierStep (n : ℕ) (M : ℕ → ℕ → ℝ) (inTier : ℝ → Prop)
    (blocked : Finset ℕ) (level : String) (thr : ℝ) (stem : String)
    (issues : List Issue) (st : PassState) (i : ℕ) : PassState :=
  if i ∈ st.processed ∨ i ∈ blocked then st
  else
    let js := tierCands n M inTier blocked st i
    if js = [] then st
    else
      let mem := i :: js
      let g : SGroup :=
        { issues := mem.map (fun k => issues.getD k default),
          members := mem,
          avg_similarity := avgSim M mem,
          similarity_level := level,
          threshold_used := thr }
      { groups := st.groups ++ [(stem ++ toString st.counter, g)],
        counter := st.counter + 1,
        processed := st.processed ∪ mem.toFinset }

/-- One tier pass of `find_similar_issues` (each of the three
near-identical blocks at lines 299-341, 343-385, 387-429): the anchor
step above over all indices in input order. -/
noncomputable def tierPass (n : ℕ) (M : ℕ → ℕ → ℝ) (inTier : ℝ → Prop)
    (blocked : Finset ℕ) (level : String) (thr : ℝ) (stem : String)
    (issues : List Issue) (st0 : PassState) : PassState :=
  (List.range n).foldl (tierStep n M inTier blocked level thr stem issues) st0

/-- `SimilarityDetector.find_similar_issues` (lines 249-431): empty
input short-circuits to the empty mapping; otherwise the three tier
passes run in order (High `>= 0.8`, Medium `[0.5, 0.8)`, Low
`[0.3, 0.5)`), each blocked by the earlier tiers' processed sets, with
one shared group counter. -/
noncomputable def find_similar_issues (issues : List Issue) : List (String × SGroup) :=
  match issues with
  | [] => []
  | _ :: _ =>
    let n := issues.length
    let M := simMatrix issues
    let s1 := tierPass n M (fun v => 0.8 ≤ v) ∅ "High" 0.8
      "high_similarity_group_" issues ⟨[], 1, ∅⟩
    let s2 := tierPass n M (fun v => 0.5 ≤ v ∧ v < 0.8) s1.processed "Medium" 0.5
      "medium_similarity_group_" issues ⟨s1.groups, s1.counter, ∅⟩
    let s3 := tierPass n M (fun v => 0.3 ≤ v ∧ v < 0.5) (s1.processed ∪ s2.processed)
      "Low" 0.3 "low_similarity_group_" issues ⟨s2.groups, s2.counter, ∅⟩
    s3.groups

/-- Spec-side definition (C8's words, not the code): the arithmetic
mean of the similarity-matrix entries over all unordered pairs of
distinct members.  `offDiag` enumerates each unordered pair as its two
ordered copies; for the symmetric matrix the two copies carry the same
entry, so this quotient is exactly the unordered-pair mean (0 when
there are no pairs, by the division convention). -/
noncomputable def specMean (M : ℕ → ℕ → ℝ) (mem : List ℕ) : ℝ :=
  (∑ p ∈ mem.toFinset.offDiag, M p.1 p.2) / (mem.toFinset.offDiag.card : ℝ)

/-- Proof-scaffolding invariant of one tier pass starting from the
group list `G0` and an empty processed set: the new groups are
well-formed (members distinct, at least two, in range, unclaimed by
earlier tiers, recorded as processed, with this tier's level,
threshold, and pairwise-average), mutually disjoint, and the processed
set stays inside `[0, n)` and clear of `blocked`. -/
def PassInv (n : ℕ) (M : ℕ → ℕ → ℝ) (blocked : Finset ℕ) (level : String)
    (thr : ℝ) (G0 : List (String × SGroup)) (st : PassState) : Prop :=
  ∃ new, st.groups = G0 ++ new ∧
    (∀ g ∈ new,
      g.2.members.Nodup ∧ 2 ≤ g.2.members.length ∧
      (∀ m ∈ g.2.members, m < n) ∧
      (∀ m ∈ g.2.members, m ∉ blocked) ∧
      g.2.members.toFinset ⊆ st.processed ∧
      g.2.similarity_level = level ∧ g.2.threshold_used = thr ∧
      g.2.avg_similarity = avgSim M g.2.members) ∧
    List.Pairwise (fun g h => ∀ m ∈ g.2.members, m ∉ h.2.members) new ∧
    (∀ m ∈ st.processed, m ∉ blocked) ∧ (∀ m ∈ st.processed, m < n)

/-! ## Theorems -/

/-- C9: when the issue collection supplied to `find_similar_issues` is
empty, it returns an empty mapping (and, being a total function of its
input in this embedding, raises no exception); the empty mapping is an
ordinary value, not an error. -/
theorem find_similar_issues_empty_input : find_similar_issues [] = [] := rfl

/-- C10: for every input string, `_text_to_vector` returns a list of
exactly 100 entries, and it is deterministic: two calls on identical
text return element-for-element identical vectors. -/
theorem text_to_vector_length_and_deterministic (t1 t2 : String) (h : t1 = t2) :
    (_text_to_vector t1).length = 100 ∧ _text_to_vector t1 = _text_to_vector t2 := by
  subst h
  refine ⟨?_, rfl⟩
  unfold _text_to_vector
  simp only [List.length_cons, List.length_append, List.length_map, List.length_range,
    List.length_replicate, List.length_take]
  norm_num

/-- Witness for C10 at the concrete input `"abc"`. -/
theorem text_to_vector_length_and_deterministic_witness :
    (_text_to_vector "abc").length = 100 ∧ _text_to_vector "abc" = _text_to_vector "abc" :=
  text_to_vector_length_and_deterministic "abc" "abc" rfl

/-! ### Tokenization lemmas -/

theorem splitRunsAux_all {sep : Char → Bool} :
    ∀ (l acc : List Char), (∀ c ∈ acc, sep c = false) →
      ∀ w ∈ splitRunsAux sep l acc, w ≠ [] ∧ ∀ c ∈ w, sep c = false := by
  intro l
  induction l with
  | nil =>
    intro acc hacc w hw
    simp only [splitRunsAux] at hw
    rcases acc with _ | ⟨a, acc⟩
    · simp at hw
    · simp only [List.isEmpty_cons, Bool.false_eq_true, if_false, List.mem_singleton] at hw
      subst hw
      refine ⟨by simp, ?_⟩
      intro c hc
      exact hacc c (List.mem_reverse.mp hc)
  | cons c t ih =>
    intro acc hacc w hw
    simp only [splitRunsAux] at hw
    by_cases hs : sep c
    · rw [if_pos hs] at hw
      rcases acc with _ | ⟨a, acc⟩
      · simp only [List.isEmpty_nil, if_true] at hw
        exact ih [] (by simp) w hw
      · simp only [List.isEmpty_cons, Bool.false_eq_true, if_false, List.mem_cons] at hw
        rcases hw with hw | hw
        · subst hw
          refine ⟨by simp, ?_⟩
          intro d hd
          exact hacc d (List.mem_reverse.mp hd)
        · exact ih [] (by simp) w hw
    · rw [if_neg hs] at hw
      refine ih (c :: acc) ?_ w hw
      intro d hd
      rcases List.mem_cons.mp hd with h | h
      · subst h; simpa using hs
      · exact hacc d h

/-- Every word produced by `splitRuns` is a nonempty run of
non-separator characters. -/
theorem splitRuns_words {sep : Char → Bool} {l : List Char} :
    ∀ w ∈ splitRuns sep l, w ≠ [] ∧ ∀ c ∈ w, sep c = false :=
  splitRunsAux_all l [] (by simp)

theorem splitRunsAux_append_sep {sep : Char → Bool} {s : Char} (hs : sep s = true) :
    ∀ (l1 l2 acc : List Char),
      splitRunsAux sep (l1 ++ s :: l2) acc = splitRunsAux sep l1 acc ++ splitRuns sep l2 := by
  intro l1
  induction l1 with
  | nil =>
    intro l2 acc
    simp only [List.nil_append, splitRunsAux, hs, if_true, splitRuns]
    rcases acc with _ | ⟨a, acc⟩ <;> simp [splitRunsAux]
  | cons c t ih =>
    intro l2 acc
    simp only [List.cons_append, splitRunsAux]
    by_cases hc : sep c
    · simp only [hc, if_true]
      rcases acc with _ | ⟨a, acc⟩
      · simp only [List.isEmpty_nil, if_true, List.append_eq, ih]
      · simp only [List.isEmpty_cons, Bool.false_eq_true, if_false, List.append_eq, ih,
          List.cons_append]
    · simp only [hc, Bool.false_eq_true, if_false, List.append_eq, ih]

/-- Splitting distributes across an explicit separator character. -/
theorem splitRuns_append_sep {sep : Char → Bool} {s : Char} (hs : sep s = true)
    (l1 l2 : List Char) :
    splitRuns sep (l1 ++ s :: l2) = splitRunsAux sep l1 [] ++ splitRuns sep l2 :=
  splitRunsAux_append_sep hs l1 l2 []

theorem splitRunsAux_word {sep : Char → Bool} :
    ∀ (w acc : List Char), (∀ c ∈ w, sep c = false) →
      splitRunsAux sep w acc =
        if acc.reverse ++ w = [] then [] else [acc.reverse ++ w] := by
  intro w
  induction w with
  | nil =>
    intro acc _
    rcases acc with _ | ⟨a, acc⟩ <;> simp [splitRunsAux]
  | cons c t ih =>
    intro acc hw
    have hc : sep c = false := hw c (by simp)
    simp only [splitRunsAux, hc, Bool.false_eq_true, if_false]
    rw [ih (c :: acc) (fun d hd => hw d (List.mem_cons_of_mem c hd))]
    simp

/-- A nonempty all-non-separator list splits into itself. -/
theorem splitRuns_word {sep : Char → Bool} {w : List Char} (hw : ∀ c ∈ w, sep c = false)
    (hne : w ≠ []) : splitRuns sep w = [w] := by
  unfold splitRuns
  rw [splitRunsAux_word w [] hw]
  simp [hne]

theorem splitRunsAux_collapse_both {l : List Char} :
    (∀ acc, splitRunsAux isPySpace (collapseWsAux false l) acc =
      splitRunsAux isPySpace l acc) ∧
    splitRunsAux isPySpace (collapseWsAux true l) [] = splitRunsAux isPySpace l [] := by
  induction l with
  | nil => exact ⟨fun acc => rfl, rfl⟩
  | cons c t ih =>
    have hsp : isPySpace ' ' = true := by decide
    by_cases hc : isPySpace c
    · constructor
      · intro acc
        simp only [collapseWsAux, hc, if_true, Bool.false_eq_true, if_false]
        simp only [splitRunsAux, hsp, hc, if_true]
        rcases acc with _ | ⟨a, acc⟩
        · simp only [List.isEmpty_nil, if_true, ih.2]
        · simp only [List.isEmpty_cons, Bool.false_eq_true, if_false, ih.2]
      · simp only [collapseWsAux, hc, if_true]
        simp only [splitRunsAux, hc, if_true, List.isEmpty_nil, ih.2]
    · constructor
      · intro acc
        simp only [collapseWsAux, hc, Bool.false_eq_true, if_false]
        simp only [splitRunsAux, hc, Bool.false_eq_true, if_false]
        exact ih.1 (c :: acc)
      · simp only [collapseWsAux, hc, Bool.false_eq_true, if_false]
        simp only [splitRunsAux, hc, Bool.false_eq_true, if_false]
        exact ih.1 [c]

/-- Collapsing whitespace first does not change how a string splits. -/
theorem splitRuns_collapse (l : List Char) :
    splitRuns isPySpace (collapseWs l) = splitRuns isPySpace l :=
  splitRunsAux_collapse_both.1 []

/-- Characters of a collapsed list: a space or an original character. -/
theorem mem_collapseWs {c : Char} :
    ∀ (prev : Bool) (l : List Char), c ∈ collapseWsAux prev l → c = ' ' ∨ c ∈ l := by
  intro prev l
  induction l generalizing prev with
  | nil => intro hc; simp [collapseWsAux] at hc
  | cons d t ih =>
    intro hc
    by_cases hd : isPySpace d
    · rw [collapseWsAux, if_pos hd] at hc
      rcases prev with _ | _
      · rcases List.mem_cons.mp (by simpa using hc) with h | h
        · exact Or.inl h
        · rcases ih true h with h' | h'
          · exact Or.inl h'
          · exact Or.inr (List.mem_cons_of_mem d h')
      · rcases ih true (by simpa using hc) with h' | h'
        · exact Or.inl h'
        · exact Or.inr (List.mem_cons_of_mem d h')
    · rw [collapseWsAux, if_neg hd] at hc
      rcases List.mem_cons.mp hc with h | h
      · exact Or.inr (h ▸ List.mem_cons_self d t)
      · rcases ih false h with h' | h'
        · exact Or.inl h'
        · exact Or.inr (List.mem_cons_of_mem d h')

theorem joinWords_cons_cons (w v : List Char) (ws : List (List Char)) :
    joinWords (w :: v :: ws) = w ++ ' ' :: joinWords (v :: ws) := rfl

/-- Characters of a joined word list: a space or a character of one of
the words. -/
theorem mem_joinWords :
    ∀ (ws : List (List Char)) (c : Char), c ∈ joinWords ws →
      c = ' ' ∨ ∃ w ∈ ws, c ∈ w := by
  intro ws
  induction ws with
  | nil => intro c hc; simp [joinWords] at hc
  | cons w ws ih =>
    intro c hc
    rcases ws with _ | ⟨w', ws'⟩
    · exact Or.inr ⟨w, by simp, by simpa [joinWords] using hc⟩
    · rw [joinWords_cons_cons] at hc
      rcases List.mem_append.mp hc with h | h
      · exact Or.inr ⟨w, by simp, h⟩
      · rcases List.mem_cons.mp h with h' | h'
        · exact Or.inl h'
        · rcases ih c h' with h'' | ⟨u, hu, hcu⟩
          · exact Or.inl h''
          · exact Or.inr ⟨u, List.mem_cons_of_mem w hu, hcu⟩

theorem joinWords_ne_nil {ws : List (List Char)} (hne : ws ≠ [])
    (hw : ∀ w ∈ ws, w ≠ []) : joinWords ws ≠ [] := by
  rcases ws with _ | ⟨w, ws⟩
  · exact absurd rfl hne
  · rcases ws with _ | ⟨w', ws'⟩
    · simpa [joinWords] using hw w (by simp)
    · rw [joinWords_cons_cons]
      intro h
      rcases List.append_eq_nil.mp h with ⟨h1, h2⟩
      exact hw w (by simp) h1

/-- Splitting a space-joined list of nonempty space-free words returns
the words. -/
theorem splitRuns_joinWords :
    ∀ ws : List (List Char), (∀ w ∈ ws, w ≠ []) →
      (∀ w ∈ ws, ∀ c ∈ w, isPySpace c = false) →
      splitRuns isPySpace (joinWords ws) = ws := by
  intro ws
  induction ws with
  | nil => intro _ _; rfl
  | cons w ws ih =>
    intro hne hsep
    rcases ws with _ | ⟨w', ws'⟩
    · exact splitRuns_word (hsep w (by simp)) (hne w (by simp))
    · rw [joinWords_cons_cons,
        splitRuns_append_sep (by simp [isPySpace]) w (joinWords (w' :: ws'))]
      rw [splitRunsAux_word w [] (hsep w (by simp))]
      rw [ih (fun u hu => hne u (List.mem_cons_of_mem w hu))
        (fun u hu => hsep u (List.mem_cons_of_mem w hu))]
      simp [hne w (by simp)]

/-- The first character of a join of nonempty space-free words is not a
space. -/
theorem joinWords_head {ws : List (List Char)} (hne : ∀ w ∈ ws, w ≠ [])
    (hsep : ∀ w ∈ ws, ∀ c ∈ w, isPySpace c = false) :
    ∀ c r, joinWords ws = c :: r → isPySpace c = false := by
  intro c r hj
  rcases ws with _ | ⟨u, us⟩
  · simp [joinWords] at hj
  · have hu : u ≠ [] := hne u (by simp)
    rcases u with _ | ⟨d, u'⟩
    · exact absurd rfl hu
    · have hd : isPySpace d = false := hsep (d :: u') (by simp) d (by simp)
      rcases us with _ | ⟨v, vs⟩
      · have he : joinWords [d :: u'] = d :: u' := rfl
        rw [he] at hj
        injection hj with h1 _
        rw [← h1]
        exact hd
      · rw [joinWords_cons_cons, List.cons_append] at hj
        injection hj with h1 _
        rw [← h1]
        exact hd

/-- The last character of a join of nonempty space-free words is not a
space. -/
theorem joinWords_last :
    ∀ (ws : List (List Char)), (∀ w ∈ ws, w ≠ []) →
      (∀ w ∈ ws, ∀ c ∈ w, isPySpace c = false) →
      ∀ c r, (joinWords ws).reverse = c :: r → isPySpace c = false := by
  intro ws
  induction ws with
  | nil => intro _ _ c r hj; simp [joinWords] at hj
  | cons u us ih =>
    intro hne hsep c r hj
    rcases us with _ | ⟨v, vs⟩
    · have : c ∈ u := by
        have hj' : joinWords [u] = u := rfl
        rw [hj'] at hj
        have : c ∈ u.reverse := by rw [hj]; simp
        simpa using this
      exact hsep u (by simp) c this
    · rw [joinWords_cons_cons, List.reverse_append, List.reverse_cons] at hj
      have hJ : joinWords (v :: vs) ≠ [] :=
        joinWords_ne_nil (by simp) (fun w hw => hne w (List.mem_cons_of_mem u hw))
      rcases hr : (joinWords (v :: vs)).reverse with _ | ⟨d, r'⟩
      · exact absurd (by simpa using hr) hJ
      · rw [hr, List.cons_append] at hj
        injection hj with h1 _
        rw [h1] at hr
        exact ih (fun w hw => hne w (List.mem_cons_of_mem u hw))
          (fun w hw => hsep w (List.mem_cons_of_mem u hw)) c r' hr

/-- Stripping is the identity on a space-joined list of nonempty
space-free words. -/
theorem stripChars_joinWords {ws : List (List Char)} (hne : ∀ w ∈ ws, w ≠ [])
    (hsep : ∀ w ∈ ws, ∀ c ∈ w, isPySpace c = false) :
    stripChars (joinWords ws) = joinWords ws := by
  unfold stripChars
  have h1 : (joinWords ws).dropWhile isPySpace = joinWords ws := by
    rcases hj : joinWords ws with _ | ⟨c, r⟩
    · rfl
    · exact List.dropWhile_cons_of_neg (by simp [joinWords_head hne hsep c r hj])
  rw [h1]
  have h2 : (joinWords ws).reverse.dropWhile isPySpace = (joinWords ws).reverse := by
    rcases hj : (joinWords ws).reverse with _ | ⟨c, r⟩
    · rfl
    · exact List.dropWhile_cons_of_neg (by simp [joinWords_last ws hne hsep c r hj])
  rw [h2, List.reverse_reverse]

/-! ### Normalization lemmas -/

theorem isPyWord_not_space {c : Char} (h : isPyWord c = true) : isPySpace c = false := by
  rcases hb : isPySpace c with _ | _
  · rfl
  · exfalso
    simp only [isPyWord, Bool.or_eq_true, Bool.and_eq_true, decide_eq_true_eq] at h
    simp only [isPySpace, Bool.or_eq_true, Bool.and_eq_true, decide_eq_true_eq] at hb
    omega

theorem lowerChar_not_upper (c : Char) :
    ¬(65 ≤ (lowerChar c).toNat ∧ (lowerChar c).toNat ≤ 90) := by
  unfold lowerChar
  by_cases h : 65 ≤ c.toNat ∧ c.toNat ≤ 90
  · rw [if_pos h]
    have hv : (Char.ofNat (c.toNat + 32)).toNat = c.toNat + 32 := by
      have hvalid : Nat.isValidChar (c.toNat + 32) := Or.inl (by omega)
      unfold Char.ofNat
      rw [dif_pos hvalid]
      simp [Char.ofNatAux, Char.toNat, UInt32.toNat]
    omega
  · rw [if_neg h]
    exact h

theorem lowerChar_fixed {c : Char} (h : ¬(65 ≤ c.toNat ∧ c.toNat ≤ 90)) :
    lowerChar c = c := if_neg h

theorem lowerChar_idem (c : Char) : lowerChar (lowerChar c) = lowerChar c :=
  lowerChar_fixed (lowerChar_not_upper c)

theorem replChar_of_word {c : Char} (h : isPyWord c = true) : replChar c = c := by
  unfold replChar
  rw [if_pos (by simp [h])]

theorem mem_splitRunsAux_mem {sep : Char → Bool} {c : Char} :
    ∀ (l acc w : List Char), w ∈ splitRunsAux sep l acc → c ∈ w → c ∈ l ∨ c ∈ acc := by
  intro l
  induction l with
  | nil =>
    intro acc w hw hc
    simp only [splitRunsAux] at hw
    rcases acc with _ | ⟨a, acc⟩
    · simp at hw
    · simp only [List.isEmpty_cons, Bool.false_eq_true, if_false, List.mem_singleton] at hw
      subst hw
      exact Or.inr (List.mem_reverse.mp hc)
  | cons d t ih =>
    intro acc w hw hc
    simp only [splitRunsAux] at hw
    by_cases hd : sep d
    · rw [if_pos hd] at hw
      rcases acc with _ | ⟨a, acc⟩
      · simp only [List.isEmpty_nil, if_true] at hw
        rcases ih [] w hw hc with h | h
        · exact Or.inl (List.mem_cons_of_mem d h)
        · simp at h
      · simp only [List.isEmpty_cons, Bool.false_eq_true, if_false, List.mem_cons] at hw
        rcases hw with hw | hw
        · subst hw
          exact Or.inr (List.mem_reverse.mp hc)
        · rcases ih [] w hw hc with h | h
          · exact Or.inl (List.mem_cons_of_mem d h)
          · simp at h
    · rw [if_neg hd] at hw
      rcases ih (d :: acc) w hw hc with h | h
      · exact Or.inl (List.mem_cons_of_mem d h)
      · rcases List.mem_cons.mp h with h' | h'
        · exact Or.inl (h' ▸ List.mem_cons_self d t)
        · exact Or.inr h'

/-- A character of a split-off word occurs in the split input. -/
theorem mem_of_mem_splitRuns {sep : Char → Bool} {l w : List Char} {c : Char}
    (hw : w ∈ splitRuns sep l) (hc : c ∈ w) : c ∈ l := by
  rcases mem_splitRunsAux_mem l [] w hw hc with h | h
  · exact h
  · simp at h

/-- Characters of the tokens split off inside `normalize_text` are
lowercase word characters. -/
theorem token_char_props {l w : List Char}
    (hw : w ∈ splitRuns isPySpace (collapseWs ((l.map lowerChar).map replChar))) :
    w ≠ [] ∧ ∀ c ∈ w, isPyWord c = true ∧ lowerChar c = c := by
  obtain ⟨hne, hsep⟩ := splitRuns_words w hw
  refine ⟨hne, ?_⟩
  intro c hc
  have hcin : isPySpace c = false := hsep c hc
  have hmem : c ∈ collapseWs ((l.map lowerChar).map replChar) :=
    mem_of_mem_splitRuns hw hc
  rcases mem_collapseWs false _ hmem with h | h
  · exfalso
    rw [h] at hcin
    simp [isPySpace] at hcin
  · rcases List.mem_map.mp h with ⟨y, hy, hyc⟩
    rcases List.mem_map.mp hy with ⟨x, _, hxy⟩
    by_cases hword : isPyWord y = true
    · have : c = y := by rw [← hyc, replChar_of_word hword]
      subst this
      subst hxy
      exact ⟨hword, lowerChar_idem x⟩
    · exfalso
      by_cases hsp : isPySpace y = true
      · have : c = y := by
          rw [← hyc]
          unfold replChar
          rw [if_pos (by simp [hsp])]
        rw [this, hsp] at hcin
        exact Bool.true_eq_false.mp hcin
      · have : c = ' ' := by
          rw [← hyc]
          unfold replChar
          rw [if_neg (by simp [hword, hsp])]
        rw [this] at hcin
        simp [isPySpace] at hcin

/-- The values of the synonym table are nonempty lowercase words that
are neither stop words nor keys of the table. -/
theorem word_mapping_values :
    ∀ p ∈ word_mapping, p.2 ≠ [] ∧ (∀ c ∈ p.2, isPyWord c = true ∧ lowerChar c = c) ∧
      p.2 ∉ common_words ∧ word_mapping.find? (fun q => q.1 == p.2) = none := by
  decide

theorem applyMapping_of_none {w : List Char}
    (h : word_mapping.find? (fun q => q.1 == w) = none) : applyMapping w = w := by
  unfold applyMapping
  rw [h]

/-- Every token emitted by `normalizeTokens` is a nonempty lowercase
word that is neither a stop word nor a key of the synonym table. -/
theorem normalizeTokens_props (l : List Char) :
    ∀ w ∈ normalizeTokens l,
      w ≠ [] ∧ (∀ c ∈ w, isPyWord c = true ∧ lowerChar c = c) ∧
        w ∉ common_words ∧ word_mapping.find? (fun q => q.1 == w) = none := by
  intro w hw
  unfold normalizeTokens at hw
  rcases List.mem_map.mp hw with ⟨w0, hw0, hmap⟩
  rcases List.mem_filter.mp hw0 with ⟨hw0s, hw0c⟩
  have hprops := token_char_props hw0s
  rcases hfind : word_mapping.find? (fun q => q.1 == w0) with _ | p
  · rw [← hmap, applyMapping_of_none hfind]
    exact ⟨hprops.1, hprops.2, by simpa using hw0c, hfind⟩
  · have hp : p ∈ word_mapping := List.mem_of_find?_eq_some hfind
    have : applyMapping w0 = p.2 := by
      unfold applyMapping
      rw [hfind]
    rw [← hmap, this]
    obtain ⟨h1, h2, h3, h4⟩ := word_mapping_values p hp
    exact ⟨h1, h2, h3, h4⟩

/-- Re-tokenizing a join of already-normalized tokens returns the same
tokens. -/
theorem normalizeTokens_joinWords (ts : List (List Char))
    (hprops : ∀ w ∈ ts, w ≠ [] ∧ (∀ c ∈ w, isPyWord c = true ∧ lowerChar c = c) ∧
      w ∉ common_words ∧ word_mapping.find? (fun q => q.1 == w) = none) :
    normalizeTokens (joinWords ts) = ts := by
  have hne : ∀ w ∈ ts, w ≠ [] := fun w hw => (hprops w hw).1
  have hword : ∀ w ∈ ts, ∀ c ∈ w, isPyWord c = true ∧ lowerChar c = c :=
    fun w hw => (hprops w hw).2.1
  have hsep : ∀ w ∈ ts, ∀ c ∈ w, isPySpace c = false :=
    fun w hw c hc => isPyWord_not_space ((hword w hw c hc).1)
  have hlower : (joinWords ts).map lowerChar = joinWords ts := by
    have h := List.map_congr_left (f := lowerChar) (g := id) (fun c hc => by
      rcases mem_joinWords _ c hc with h | ⟨w, hw, hcw⟩
      · rw [h]; decide
      · exact (hword w hw c hcw).2)
    simpa using h
  have hrepl : (joinWords ts).map replChar = joinWords ts := by
    have h := List.map_congr_left (f := replChar) (g := id) (fun c hc => by
      rcases mem_joinWords _ c hc with h | ⟨w, hw, hcw⟩
      · rw [h]; decide
      · exact replChar_of_word ((hword w hw c hcw).1))
    simpa using h
  unfold normalizeTokens
  rw [hlower, hrepl, splitRuns_collapse, splitRuns_joinWords _ hne hsep]
  have hfil : (ts.filter (fun w => decide (w ∉ common_words))) = ts :=
    List.filter_eq_self.mpr (fun w hw => by simp [(hprops w hw).2.2.1])
  rw [hfil]
  have h := List.map_congr_left (f := applyMapping) (g := id)
    (fun w hw => applyMapping_of_none (hprops w hw).2.2.2)
  simpa using h

/-- C5: `normalize_text` is idempotent:
`normalize_text (normalize_text x) = normalize_text x` for every
string `x`. -/
theorem normalize_text_idempotent (s : String) :
    normalize_text (normalize_text s) = normalize_text s := by
  by_cases hs : s = ""
  · subst hs
    rfl
  · have hout : normalize_text s = ⟨stripChars (joinWords (normalizeTokens s.data))⟩ := by
      rw [normalize_text, if_neg hs]
    rw [hout]
    have hprops := normalizeTokens_props s.data
    have hne : ∀ w ∈ normalizeTokens s.data, w ≠ [] := fun w hw => (hprops w hw).1
    have hsep : ∀ w ∈ normalizeTokens s.data, ∀ c ∈ w, isPySpace c = false :=
      fun w hw c hc => isPyWord_not_space (((hprops w hw).2.1 c hc).1)
    have hstrip : stripChars (joinWords (normalizeTokens s.data)) =
        joinWords (normalizeTokens s.data) := stripChars_joinWords hne hsep
    by_cases hjn : normalizeTokens s.data = []
    · rw [hjn]
      have hemp : (⟨stripChars (joinWords ([] : List (List Char)))⟩ : String) = "" := by
        decide
      rw [hemp]
      rfl
    · have hjoin_ne : joinWords (normalizeTokens s.data) ≠ [] := joinWords_ne_nil hjn hne
      have hsne : (⟨stripChars (joinWords (normalizeTokens s.data))⟩ : String) ≠ "" := by
        intro h
        rw [hstrip] at h
        exact hjoin_ne (congrArg String.data h)
      rw [normalize_text, if_neg hsne]
      have hdata : (⟨stripChars (joinWords (normalizeTokens s.data))⟩ : String).data =
          joinWords (normalizeTokens s.data) := hstrip
      rw [hdata, normalizeTokens_joinWords _ hprops]

theorem splitRuns_sep_head {sep : Char → Bool} {c : Char} (hc : sep c = true)
    (t : List Char) : splitRuns sep (c :: t) = splitRuns sep t := by
  simp [splitRuns, splitRunsAux, hc]

/-- The tokens of a `<b>`-tagged string: the tag delimiters become
spaces, so the tag names survive as tokens; tagging behaves exactly
like writing the tag-name tokens out. -/
theorem tag_tokens_eq (s : String) :
    normalizeTokens ("<b>" ++ s ++ "</b>").data = normalizeTokens ("b " ++ s ++ " b").data := by
  have hd1 : ("<b>" ++ s ++ "</b>").data = ['<', 'b', '>'] ++ s.data ++ ['<', '/', 'b', '>'] :=
    rfl
  have hd2 : ("b " ++ s ++ " b").data = ['b', ' '] ++ s.data ++ [' ', 'b'] := rfl
  unfold normalizeTokens
  rw [hd1, hd2]
  have hsplit :
      splitRuns isPySpace (collapseWs
          (((['<', 'b', '>'] ++ s.data ++ ['<', '/', 'b', '>']).map lowerChar).map replChar)) =
        splitRuns isPySpace (collapseWs
          (((['b', ' '] ++ s.data ++ [' ', 'b']).map lowerChar).map replChar)) := by
    rw [splitRuns_collapse, splitRuns_collapse]
    simp only [List.map_append]
    have hm1 : ((['<', 'b', '>'] : List Char).map lowerChar).map replChar = [' ', 'b', ' '] := by
      decide
    have hm2 : ((['<', '/', 'b', '>'] : List Char).map lowerChar).map replChar =
        [' ', ' ', 'b', ' '] := by decide
    have hm3 : ((['b', ' '] : List Char).map lowerChar).map replChar = ['b', ' '] := by decide
    have hm4 : (([' ', 'b'] : List Char).map lowerChar).map replChar = [' ', 'b'] := by decide
    rw [hm1, hm2, hm3, hm4]
    have hsp : isPySpace ' ' = true := by decide
    have e1 : ([' ', 'b', ' '] : List Char) ++ (s.data.map lowerChar).map replChar ++
        [' ', ' ', 'b', ' '] =
        ' ' :: (['b'] ++ ' ' :: ((s.data.map lowerChar).map replChar ++
          ' ' :: [' ', 'b', ' '])) := by
      simp
    have e2 : (['b', ' '] : List Char) ++ (s.data.map lowerChar).map replChar ++ [' ', 'b'] =
        ['b'] ++ ' ' :: ((s.data.map lowerChar).map replChar ++ ' ' :: ['b']) := by
      simp
    rw [e1, e2, splitRuns_sep_head hsp, splitRuns_append_sep hsp, splitRuns_append_sep hsp,
      splitRuns_append_sep hsp, splitRuns_append_sep hsp]
    have c1 : splitRunsAux isPySpace ['b'] [] = [['b']] := by decide
    have c2 : splitRuns isPySpace [' ', 'b', ' '] = [['b']] := by decide
    have c3 : splitRuns isPySpace ['b'] = [['b']] := by decide
    rw [c1, c2, c3]
  rw [hsplit]

/-- C6 (amended): `normalize_text` does not strip markup tags; the tag
delimiter characters are replaced by spaces, so tag names survive as
tokens, and tagging a string behaves exactly like inserting the tag
names as words. -/
theorem normalize_text_tags_become_tokens (s : String) :
    normalize_text ("<b>" ++ s ++ "</b>") = normalize_text ("b " ++ s ++ " b") := by
  have h1 : ("<b>" ++ s ++ "</b>" : String) ≠ "" := by
    intro h
    have := congrArg String.data h
    rw [show ("<b>" ++ s ++ "</b>").data =
      ['<', 'b', '>'] ++ s.data ++ ['<', '/', 'b', '>'] from rfl] at this
    simp at this
  have h2 : ("b " ++ s ++ " b" : String) ≠ "" := by
    intro h
    have := congrArg String.data h
    rw [show ("b " ++ s ++ " b").data = ['b', ' '] ++ s.data ++ [' ', 'b'] from rfl] at this
    simp at this
  have e1 : normalize_text ("<b>" ++ s ++ "</b>") =
      ⟨stripChars (joinWords (normalizeTokens ("<b>" ++ s ++ "</b>").data))⟩ := by
    rw [normalize_text, if_neg h1]
  have e2 : normalize_text ("b " ++ s ++ " b") =
      ⟨stripChars (joinWords (normalizeTokens ("b " ++ s ++ " b").data))⟩ := by
    rw [normalize_text, if_neg h2]
  rw [e1, e2, tag_tokens_eq]

/-- C6 (counterexample to the claim as stated): `normalize_text` does
not delete markup tags — on the spec's own example `"<b>login</b>"` it
keeps the tag name as a token, so the result differs from normalizing
the tag-deleted string `"login"`. -/
theorem normalize_text_tag_stripping_counterexample :
    normalize_text "<b>login</b>" = "b login b" ∧ normalize_text "login" = "login" ∧
      normalize_text "<b>login</b>" ≠ normalize_text "login" := by
  refine ⟨by decide, by decide, by decide⟩

/-! ### difflib window-bounds lemmas -/

theorem matchPositions_mem {b : List Char} {blo bhi : ℕ} {c : Char} {j : ℕ}
    (hj : j ∈ matchPositions b blo bhi c) : blo ≤ j ∧ j < bhi := by
  unfold matchPositions at hj
  by_cases hp : popularChar b c
  · rw [if_pos hp] at hj
    simp at hj
  · rw [if_neg hp] at hj
    rcases List.mem_filter.mp hj with ⟨_, h⟩
    simp only [Bool.and_eq_true, decide_eq_true_eq] at h
    exact ⟨h.1.1, h.1.2⟩

theorem flmInner_binv {alo blo bhi i : ℕ} {old : ℕ → ℕ} {st : FlmState} {j : ℕ}
    (halo : alo ≤ i) (hjlo : blo ≤ j) (hjhi : j < bhi)
    (hold : ∀ x, old x ≤ i - alo) (holdb : ∀ x, old x ≤ x + 1 - blo)
    (hst : FlmBInv alo blo bhi (i + 1) st) :
    FlmBInv alo blo bhi (i + 1) (flmInner old i st j) := by
  obtain ⟨h1, h2, h3, h4, h5, h6⟩ := hst
  unfold flmInner kOf
  dsimp only
  have hk1 : (if j = 0 then 1 else old (j - 1) + 1) ≤ i + 1 - alo := by
    by_cases hj0 : j = 0
    · rw [if_pos hj0]; omega
    · rw [if_neg hj0]
      have := hold (j - 1)
      omega
  have hk2 : (if j = 0 then 1 else old (j - 1) + 1) ≤ j + 1 - blo := by
    by_cases hj0 : j = 0
    · rw [if_pos hj0]
      omega
    · rw [if_neg hj0]
      have := holdb (j - 1)
      omega
  have hk3 : 1 ≤ (if j = 0 then 1 else old (j - 1) + 1) := by
    by_cases hj0 : j = 0
    · rw [if_pos hj0]
    · rw [if_neg hj0]; omega
  by_cases hup : st.bestsize < (if j = 0 then 1 else old (j - 1) + 1)
  · rw [if_pos hup]
    unfold FlmBInv
    dsimp only
    refine ⟨by omega, by omega, by omega, by omega, ?_, ?_⟩
    · intro x
      by_cases hx : x = j
      · simp only [hx, if_pos rfl]
        exact hk1
      · simp only [if_neg hx]
        exact h5 x
    · intro x
      by_cases hx : x = j
      · simp only [hx, if_pos rfl]
        exact hk2
      · simp only [if_neg hx]
        exact h6 x
  · rw [if_neg hup]
    unfold FlmBInv
    dsimp only
    refine ⟨h1, h2, h3, h4, ?_, ?_⟩
    · intro x
      by_cases hx : x = j
      · simp only [hx, if_pos rfl]
        exact hk1
      · simp only [if_neg hx]
        exact h5 x
    · intro x
      by_cases hx : x = j
      · simp only [hx, if_pos rfl]
        exact hk2
      · simp only [if_neg hx]
        exact h6 x

theorem flmInner_fold_binv {alo blo bhi i : ℕ} {old : ℕ → ℕ}
    (halo : alo ≤ i)
    (hold : ∀ x, old x ≤ i - alo) (holdb : ∀ x, old x ≤ x + 1 - blo) :
    ∀ (js : List ℕ) (st : FlmState), (∀ j ∈ js, blo ≤ j ∧ j < bhi) →
      FlmBInv alo blo bhi (i + 1) st →
      FlmBInv alo blo bhi (i + 1) (js.foldl (flmInner old i) st) := by
  intro js
  induction js with
  | nil => intro st _ h; exact h
  | cons j js ih =>
    intro st hmem hst
    simp only [List.foldl_cons]
    exact ih _ (fun x hx => hmem x (List.mem_cons_of_mem j hx))
      (flmInner_binv halo (hmem j (by simp)).1 (hmem j (by simp)).2 hold holdb hst)

theorem flmStep_binv {a b : List Char} {alo blo bhi i : ℕ} {st : FlmState}
    (halo : alo ≤ i) (hst : FlmBInv alo blo bhi i st) :
    FlmBInv alo blo bhi (i + 1) (flmStep a b blo bhi st i) := by
  obtain ⟨h1, h2, h3, h4, h5, h6⟩ := hst
  unfold flmStep
  have hinit : FlmBInv alo blo bhi (i + 1) { st with j2len := fun _ => 0 } := by
    unfold FlmBInv
    dsimp only
    exact ⟨h1, h2, by omega, h4, fun _ => by omega, fun _ => by omega⟩
  exact flmInner_fold_binv halo h5 h6 _ _ (fun j hj => matchPositions_mem hj) hinit

theorem flm_fold_binv {a b : List Char} {alo blo bhi : ℕ} :
    ∀ (n i0 : ℕ) (st : FlmState), alo ≤ i0 → FlmBInv alo blo bhi i0 st →
      FlmBInv alo blo bhi (i0 + n) ((List.range' i0 n).foldl (flmStep a b blo bhi) st) := by
  intro n
  induction n with
  | zero => intro i0 st _ h; exact h
  | succ n ih =>
    intro i0 st hle h
    rw [List.range'_succ]
    simp only [List.foldl_cons]
    have := ih (i0 + 1) (flmStep a b blo bhi st i0) (by omega) (flmStep_binv hle h)
    have harith : i0 + 1 + n = i0 + (n + 1) := by omega
    rw [harith] at this
    exact this

theorem backCount_le (a b : List Char) (p q n : ℕ) : backCount a b p q n ≤ n := by
  unfold backCount
  calc _ ≤ (List.range n).length := (List.takeWhile_sublist _).length_le
  _ = n := List.length_range n

theorem fwdCount_le (a b : List Char) (p q n : ℕ) : fwdCount a b p q n ≤ n := by
  unfold fwdCount
  calc _ ≤ (List.range n).length := (List.takeWhile_sublist _).length_le
  _ = n := List.length_range n

/-- The block returned by `find_longest_match` lies inside the given
windows. -/
theorem findLongestMatch_bounds (a b : List Char) (alo ahi blo bhi : ℕ)
    (ha : alo ≤ ahi) (hb : blo ≤ bhi) :
    alo ≤ (findLongestMatch a b alo ahi blo bhi).1 ∧
      blo ≤ (findLongestMatch a b alo ahi blo bhi).2.1 ∧
      (findLongestMatch a b alo ahi blo bhi).1 +
        (findLongestMatch a b alo ahi blo bhi).2.2 ≤ ahi ∧
      (findLongestMatch a b alo ahi blo bhi).2.1 +
        (findLongestMatch a b alo ahi blo bhi).2.2 ≤ bhi := by
  unfold findLongestMatch
  dsimp only
  set st := (List.range' alo (ahi - alo)).foldl (flmStep a b blo bhi)
    (⟨fun _ => 0, alo, blo, 0⟩ : FlmState) with hst
  have h0 : FlmBInv alo blo bhi alo (⟨fun _ => 0, alo, blo, 0⟩ : FlmState) := by
    unfold FlmBInv
    dsimp only
    exact ⟨le_rfl, le_rfl, by omega, by omega, fun _ => by omega, fun _ => by omega⟩
  have hfold := flm_fold_binv (a := a) (b := b) (ahi - alo) alo _ le_rfl h0
  have harith : alo + (ahi - alo) = ahi := by omega
  rw [harith, ← hst] at hfold
  obtain ⟨h1, h2, h3, h4, _, _⟩ := hfold
  have hd1 : backCount a b st.besti st.bestj (min (st.besti - alo) (st.bestj - blo)) ≤
      min (st.besti - alo) (st.bestj - blo) := backCount_le a b _ _ _
  have hd2 := fwdCount_le a b
    (st.besti - backCount a b st.besti st.bestj (min (st.besti - alo) (st.bestj - blo)) +
      (st.bestsize + backCount a b st.besti st.bestj (min (st.besti - alo) (st.bestj - blo))))
    (st.bestj - backCount a b st.besti st.bestj (min (st.besti - alo) (st.bestj - blo)) +
      (st.bestsize + backCount a b st.besti st.bestj (min (st.besti - alo) (st.bestj - blo))))
    (min (ahi - (st.besti - backCount a b st.besti st.bestj
        (min (st.besti - alo) (st.bestj - blo)) +
      (st.bestsize + backCount a b st.besti st.bestj (min (st.besti - alo) (st.bestj - blo)))))
      (bhi - (st.bestj - backCount a b st.besti st.bestj
        (min (st.besti - alo) (st.bestj - blo)) +
      (st.bestsize + backCount a b st.besti st.bestj (min (st.besti - alo) (st.bestj - blo))))))
  omega

/-- The total matched size is at most the length of either window. -/
theorem matchedTotal_le (a b : List Char) :
    ∀ (fuel alo ahi blo bhi : ℕ), alo ≤ ahi → blo ≤ bhi →
      matchedTotal a b fuel alo ahi blo bhi ≤ min (ahi - alo) (bhi - blo) := by
  intro fuel
  induction fuel with
  | zero =>
    intro alo ahi blo bhi _ _
    simp [matchedTotal]
  | succ fuel ih =>
    intro alo ahi blo bhi ha hb
    simp only [matchedTotal]
    obtain ⟨hb1, hb2, hb3, hb4⟩ := findLongestMatch_bounds a b alo ahi blo bhi ha hb
    by_cases hz : (findLongestMatch a b alo ahi blo bhi).2.2 = 0
    · rw [if_pos hz]
      omega
    · rw [if_neg hz]
      have hl := ih alo (findLongestMatch a b alo ahi blo bhi).1 blo
        (findLongestMatch a b alo ahi blo bhi).2.1 hb1 hb2
      have hrr := ih ((findLongestMatch a b alo ahi blo bhi).1 +
          (findLongestMatch a b alo ahi blo bhi).2.2) ahi
        ((findLongestMatch a b alo ahi blo bhi).2.1 +
          (findLongestMatch a b alo ahi blo bhi).2.2) bhi hb3 hb4
      omega

/-- `ratio()` always lies in `[0, 1]`. -/
theorem seqRatio_bounds (a b : List Char) : 0 ≤ seqRatio a b ∧ seqRatio a b ≤ 1 := by
  unfold seqRatio
  dsimp only
  by_cases h : a.length + b.length = 0
  · rw [if_pos h]
    norm_num
  · rw [if_neg h]
    have hm := matchedTotal_le a b (a.length + b.length + 1) 0 a.length 0 b.length
      (by omega) (by omega)
    have hpos : (0 : ℚ) < (a.length : ℚ) + (b.length : ℚ) := by
      have h0 : 0 < a.length + b.length := Nat.pos_of_ne_zero h
      exact_mod_cast h0
    constructor
    · exact div_nonneg (mul_nonneg (by norm_num) (Nat.cast_nonneg _)) (le_of_lt hpos)
    · rw [div_le_one hpos]
      have h2 : 2 * matchedTotal a b (a.length + b.length + 1) 0 a.length 0 b.length ≤
          a.length + b.length := by
        simp only [Nat.sub_zero] at hm
        omega
      exact_mod_cast h2

/-! ### difflib identical-input lemmas -/

theorem ruW_le (x : List Char) (lo hi : ℕ) : ∀ j, ruW x lo hi j ≤ j + 1 - lo := by
  intro j
  induction j with
  | zero =>
    unfold ruW
    by_cases h : lo = 0 ∧ 0 < hi ∧ popularChar x (x.getD 0 '*') = false
    · rw [if_pos h]
      omega
    · rw [if_neg h]
      omega
  | succ j ih =>
    unfold ruW
    by_cases h : lo ≤ j + 1 ∧ j + 1 < hi ∧ popularChar x (x.getD (j + 1) '*') = false
    · rw [if_pos h]
      omega
    · rw [if_neg h]
      omega

theorem ruW_guard {x : List Char} {lo hi j : ℕ} (h1 : lo ≤ j) (h2 : j < hi)
    (h3 : popularChar x (x.getD j '*') = false) :
    ruW x lo hi j = (if j = 0 then 0 else ruW x lo hi (j - 1)) + 1 := by
  rcases j with _ | j
  · have hl0 : lo = 0 := by omega
    rw [if_pos rfl]
    conv_lhs => rw [ruW]
    rw [if_pos ⟨hl0, h2, h3⟩]
  · rw [if_neg (Nat.succ_ne_zero j), show j + 1 - 1 = j from rfl]
    conv_lhs => rw [ruW]
    rw [if_pos ⟨h1, h2, h3⟩]

theorem ruW_guard_pos {x : List Char} {lo hi j : ℕ} (h1 : lo ≤ j) (h2 : j < hi)
    (h3 : popularChar x (x.getD j '*') = false) : 1 ≤ ruW x lo hi j := by
  rw [ruW_guard h1 h2 h3]
  omega

theorem ruW_of_lt {x : List Char} {lo hi j : ℕ} (h : j < lo) : ruW x lo hi j = 0 := by
  rcases j with _ | j
  · unfold ruW
    rw [if_neg (by omega)]
  · unfold ruW
    rw [if_neg (by omega)]

theorem flmInner_j2len (old : ℕ → ℕ) (i : ℕ) (st : FlmState) (j : ℕ) :
    (flmInner old i st j).j2len = fun y => if y = j then kOf old j else st.j2len y := by
  unfold flmInner
  dsimp only
  by_cases hup : st.bestsize < kOf old j
  · rw [if_pos hup]
  · rw [if_neg hup]

theorem flmInner_best_le {old : ℕ → ℕ} {i : ℕ} {st : FlmState} {j : ℕ}
    (h : kOf old j ≤ st.bestsize) :
    (flmInner old i st j).besti = st.besti ∧ (flmInner old i st j).bestj = st.bestj ∧
      (flmInner old i st j).bestsize = st.bestsize := by
  unfold flmInner
  dsimp only
  rw [if_neg (by omega)]
  exact ⟨rfl, rfl, rfl⟩

theorem flmInner_best_lt {old : ℕ → ℕ} {i : ℕ} {st : FlmState} {j : ℕ}
    (h : st.bestsize < kOf old j) :
    (flmInner old i st j).besti = i + 1 - kOf old j ∧
      (flmInner old i st j).bestj = j + 1 - kOf old j ∧
      (flmInner old i st j).bestsize = kOf old j := by
  unfold flmInner
  dsimp only
  rw [if_pos h]
  exact ⟨rfl, rfl, rfl⟩

theorem flmInner_fold_noUpdate {old : ℕ → ℕ} {i : ℕ} :
    ∀ (js : List ℕ) (st : FlmState), (∀ j ∈ js, kOf old j ≤ st.bestsize) →
      (js.foldl (flmInner old i) st).besti = st.besti ∧
        (js.foldl (flmInner old i) st).bestj = st.bestj ∧
        (js.foldl (flmInner old i) st).bestsize = st.bestsize := by
  intro js
  induction js with
  | nil => intro st _; exact ⟨rfl, rfl, rfl⟩
  | cons j js ih =>
    intro st hk
    simp only [List.foldl_cons]
    obtain ⟨e1, e2, e3⟩ := flmInner_best_le (i := i) (hk j (by simp))
    obtain ⟨f1, f2, f3⟩ := ih (flmInner old i st j) (fun y hy => by
      rw [e3]
      exact hk y (List.mem_cons_of_mem j hy))
    exact ⟨f1.trans e1, f2.trans e2, f3.trans e3⟩

theorem flmInner_fold_j2len_prop {old : ℕ → ℕ} {i : ℕ} (P : ℕ → ℕ → Prop) :
    ∀ (js : List ℕ) (st : FlmState), (∀ j ∈ js, P j (kOf old j)) →
      (∀ y, P y (st.j2len y)) → ∀ y, P y ((js.foldl (flmInner old i) st).j2len y) := by
  intro js
  induction js with
  | nil => intro st _ hst y; exact hst y
  | cons j js ih =>
    intro st hk hst y
    simp only [List.foldl_cons]
    refine ih _ (fun z hz => hk z (List.mem_cons_of_mem j hz)) ?_ y
    intro z
    rw [flmInner_j2len]
    by_cases hz : z = j
    · simp only [hz, if_pos rfl]
      exact hk j (by simp)
    · simp only [if_neg hz]
      exact hst z

theorem flmInner_fold_j2len_preserve {old : ℕ → ℕ} {i : ℕ} :
    ∀ (js : List ℕ) (st : FlmState) (y : ℕ), y ∉ js →
      (js.foldl (flmInner old i) st).j2len y = st.j2len y := by
  intro js
  induction js with
  | nil => intro st y _; rfl
  | cons j js ih =>
    intro st y hy
    simp only [List.foldl_cons]
    rw [ih _ y (fun h => hy (List.mem_cons_of_mem j h)), flmInner_j2len]
    have hyj : y ≠ j := fun h => hy (h ▸ List.mem_cons_self j js)
    simp only [if_neg hyj]

theorem flmStep_dinv {x : List Char} {lo hi i : ℕ} {st : FlmState}
    (hlo : lo ≤ i) (hihi : i < hi) (hhx : hi ≤ x.length)
    (hst : FlmDInv x lo hi i st) :
    FlmDInv x lo hi (i + 1) (flmStep x x lo hi st i) := by
  obtain ⟨hA, hB1, hB2, hBmax, hC1, hC2, hE⟩ := hst
  unfold flmStep
  dsimp only
  by_cases hpop : popularChar x (x.getD i '*') = true
  · have hjs : matchPositions x lo hi (x.getD i '*') = [] := by
      unfold matchPositions
      rw [if_pos hpop]
    rw [hjs]
    simp only [List.foldl_nil]
    have hru : ruW x lo hi i = 0 := by
      rcases i with _ | i
      · have hng : ¬(lo = 0 ∧ 0 < hi ∧ popularChar x (x.getD 0 '*') = false) := by
          intro h
          rw [h.2.2] at hpop
          exact Bool.false_ne_true hpop
        unfold ruW
        rw [if_neg hng]
      · have hng : ¬(lo ≤ i + 1 ∧ i + 1 < hi ∧
            popularChar x (x.getD (i + 1) '*') = false) := by
          intro h
          rw [h.2.2] at hpop
          exact Bool.false_ne_true hpop
        unfold ruW
        rw [if_neg hng]
    unfold FlmDInv
    dsimp only
    refine ⟨hA, hB1, by omega, ?_, fun j => by omega, fun j => by omega, ?_⟩
    · intro t ht
      by_cases hti : t = i
      · rw [hti, hru]
        omega
      · exact hBmax t (by omega)
    · intro _
      simp only [Nat.add_sub_cancel]
      rw [hru]
  · have hpop' : popularChar x (x.getD i '*') = false := by
      rcases hb : popularChar x (x.getD i '*') with _ | _
      · rfl
      · exact absurd hb hpop
    have hilen : i < x.length := lt_of_lt_of_le hihi hhx
    have hrui : ruW x lo hi i = (if i = 0 then 0 else ruW x lo hi (i - 1)) + 1 :=
      ruW_guard hlo hihi hpop'
    have hruipos : 1 ≤ ruW x lo hi i := by omega
    -- decompose the match positions around the diagonal position i
    have hjs : matchPositions x lo hi (x.getD i '*') =
        ((List.range' 0 i).filter (fun j => decide (lo ≤ j) && decide (j < hi) &&
            decide (x.getD j '*' = x.getD i '*'))) ++
          i :: ((List.range' (i + 1) (x.length - (i + 1))).filter
            (fun j => decide (lo ≤ j) && decide (j < hi) &&
              decide (x.getD j '*' = x.getD i '*'))) := by
      unfold matchPositions
      rw [if_neg hpop]
      rw [List.range_eq_range']
      have hsplit : List.range' 0 x.length = List.range' 0 i ++ List.range' i (x.length - i) := by
        have h := List.range'_append_1 (s := 0) (m := i) (n := x.length - i)
        have harith : x.length - i + i = x.length := by omega
        simpa [harith] using h.symm
      rw [hsplit, List.filter_append]
      have hlen : x.length - i = (x.length - (i + 1)) + 1 := by omega
      rw [hlen, List.range'_succ, List.filter_cons_of_pos (by simp [hlo, hihi])]
    rw [hjs, List.foldl_append]
    simp only [List.foldl_cons]
    have hmemA : ∀ j ∈ (List.range' 0 i).filter (fun j => decide (lo ≤ j) && decide (j < hi) &&
        decide (x.getD j '*' = x.getD i '*')),
        j < i ∧ lo ≤ j ∧ j < hi ∧ x.getD j '*' = x.getD i '*' := by
      intro j hj
      rcases List.mem_filter.mp hj with ⟨hr, hp⟩
      simp only [Bool.and_eq_true, decide_eq_true_eq] at hp
      have := List.mem_range'_1.mp hr
      exact ⟨by omega, hp.1.1, hp.1.2, hp.2⟩
    have hmemB : ∀ j ∈ (List.range' (i + 1) (x.length - (i + 1))).filter
        (fun j => decide (lo ≤ j) && decide (j < hi) &&
          decide (x.getD j '*' = x.getD i '*')),
        i < j ∧ lo ≤ j ∧ j < hi ∧ x.getD j '*' = x.getD i '*' := by
      intro j hj
      rcases List.mem_filter.mp hj with ⟨hr, hp⟩
      simp only [Bool.and_eq_true, decide_eq_true_eq] at hp
      have := List.mem_range'_1.mp hr
      exact ⟨by omega, hp.1.1, hp.1.2, hp.2⟩
    -- bounds on the chain value written at any visited position
    have hkle : ∀ j, lo ≤ j → j < hi → x.getD j '*' = x.getD i '*' →
        kOf st.j2len j ≤ ruW x lo hi j := by
      intro j h1 h2 h3
      have hg : ruW x lo hi j = (if j = 0 then 0 else ruW x lo hi (j - 1)) + 1 :=
        ruW_guard h1 h2 (by rw [h3]; exact hpop')
      unfold kOf
      rcases j with _ | j
      · rw [if_pos rfl]
        omega
      · rw [if_neg (Nat.succ_ne_zero j)]
        have h1 := hC1 j
        have hj : j + 1 - 1 = j := rfl
        rw [hj]
        rw [hg, if_neg (Nat.succ_ne_zero j), hj]
        omega
    have hkcap : ∀ j, kOf st.j2len j ≤ ruW x lo hi i := by
      intro j
      unfold kOf
      rcases j with _ | j
      · rw [if_pos rfl]
        exact hruipos
      · rw [if_neg (Nat.succ_ne_zero j)]
        have hj : j + 1 - 1 = j := rfl
        rw [hj]
        have hcap := hC2 j
        by_cases hil : i = lo
        · rw [if_pos hil] at hcap
          omega
        · rw [if_neg hil] at hcap
          have hi0 : i ≠ 0 := by omega
          rw [hrui, if_neg hi0]
          omega
    have hki : kOf st.j2len i = ruW x lo hi i := by
      unfold kOf
      by_cases hi0 : i = 0
      · subst hi0
        rw [if_pos rfl, hrui]
        rfl
      · rw [if_neg hi0, hrui, if_neg hi0]
        congr 1
        by_cases hil : lo < i
        · exact hE hil
        · have hieq : i = lo := by omega
          have h1 := hC2 (i - 1)
          rw [if_pos hieq] at h1
          have h2 : ruW x lo hi (i - 1) = 0 := ruW_of_lt (by omega)
          rw [h2]
          omega
    set A := (List.range' 0 i).filter (fun j => decide (lo ≤ j) && decide (j < hi) &&
        decide (x.getD j '*' = x.getD i '*')) with hAdef
    set B := (List.range' (i + 1) (x.length - (i + 1))).filter
        (fun j => decide (lo ≤ j) && decide (j < hi) &&
          decide (x.getD j '*' = x.getD i '*')) with hBdef
    set st1 : FlmState := { st with j2len := fun _ => 0 } with hst1
    set stA := List.foldl (flmInner st.j2len i) st1 A with hstA
    set stI := flmInner st.j2len i stA i with hstI
    have hkA : ∀ j ∈ A, kOf st.j2len j ≤ st1.bestsize := by
      intro j hj
      obtain ⟨hji, h1, h2, h3⟩ := hmemA j hj
      exact le_trans (hkle j h1 h2 h3) (hBmax j hji)
    obtain ⟨eA1, eA2, eA3⟩ := flmInner_fold_noUpdate A st1 hkA
    rw [← hstA] at eA1 eA2 eA3
    have hPA : ∀ y, (stA.j2len y ≤ ruW x lo hi y ∧ stA.j2len y ≤ ruW x lo hi i) := by
      refine flmInner_fold_j2len_prop
        (fun y v => v ≤ ruW x lo hi y ∧ v ≤ ruW x lo hi i) A st1 ?_ ?_
      · intro j hj
        obtain ⟨hji, h1, h2, h3⟩ := hmemA j hj
        exact ⟨hkle j h1 h2 h3, hkcap j⟩
      · intro y
        exact ⟨Nat.zero_le _, Nat.zero_le _⟩
    have hst1b : st1.bestsize = st.bestsize := rfl
    have hst1i : st1.besti = st.besti := rfl
    have hst1j : st1.bestj = st.bestj := rfl
    have hIdiag : stI.besti = stI.bestj ∧ lo ≤ stI.besti ∧
        stI.besti + stI.bestsize ≤ i + 1 ∧ ruW x lo hi i ≤ stI.bestsize ∧
        st.bestsize ≤ stI.bestsize := by
      have hrle := ruW_le x lo hi i
      by_cases hup : stA.bestsize < kOf st.j2len i
      · obtain ⟨e1, e2, e3⟩ := flmInner_best_lt (i := i) hup
        rw [← hstI] at e1 e2 e3
        rw [hki] at e1 e2 e3 hup
        refine ⟨by rw [e1, e2], by rw [e1]; omega, by rw [e1, e3]; omega,
          by rw [e3], ?_⟩
        rw [e3]
        have := eA3.trans hst1b
        omega
      · obtain ⟨e1, e2, e3⟩ := flmInner_best_le (i := i) (Nat.le_of_not_lt hup)
        rw [← hstI] at e1 e2 e3
        have hbs : stI.bestsize = st.bestsize := by rw [e3, eA3, hst1b]
        have hbi : stI.besti = st.besti := by rw [e1, eA1, hst1i]
        have hbj : stI.bestj = st.bestj := by rw [e2, eA2, hst1j]
        refine ⟨by rw [hbi, hbj]; exact hA, by rw [hbi]; exact hB1,
          by rw [hbi, hbs]; omega, ?_, by rw [hbs]⟩
        rw [hbs, ← hki]
        have := eA3.trans hst1b
        omega
    obtain ⟨hI1, hI2, hI3, hI4, hI5⟩ := hIdiag
    have hkB : ∀ j ∈ B, kOf st.j2len j ≤ stI.bestsize := fun j _ =>
      le_trans (hkcap j) hI4
    obtain ⟨eB1, eB2, eB3⟩ := @flmInner_fold_noUpdate st.j2len i B stI hkB
    have hIj2 : stI.j2len = fun y => if y = i then kOf st.j2len i else stA.j2len y := by
      rw [hstI, flmInner_j2len]
    have hPB : ∀ y, ((List.foldl (flmInner st.j2len i) stI B).j2len y ≤ ruW x lo hi y ∧
        (List.foldl (flmInner st.j2len i) stI B).j2len y ≤ ruW x lo hi i) := by
      refine flmInner_fold_j2len_prop
        (fun y v => v ≤ ruW x lo hi y ∧ v ≤ ruW x lo hi i) B stI ?_ ?_
      · intro j hj
        obtain ⟨hji, h1, h2, h3⟩ := hmemB j hj
        exact ⟨hkle j h1 h2 h3, hkcap j⟩
      · intro y
        rw [hIj2]
        by_cases hy : y = i
        · simp only [hy, if_pos rfl, hki]
          exact ⟨le_rfl, le_rfl⟩
        · simp only [if_neg hy]
          exact hPA y
    have hiB : i ∉ B := by
      intro hmem
      exact absurd (hmemB i hmem).1 (lt_irrefl i)
    have hFi : (List.foldl (flmInner st.j2len i) stI B).j2len i = ruW x lo hi i := by
      rw [flmInner_fold_j2len_preserve B stI i hiB, hIj2]
      simp [hki]
    unfold FlmDInv
    refine ⟨by rw [eB1, eB2]; exact hI1, by rw [eB1]; exact hI2,
      by rw [eB1, eB3]; exact hI3, ?_, fun y => (hPB y).1, ?_, ?_⟩
    · intro t ht
      rw [eB3]
      by_cases hti : t = i
      · rw [hti]
        exact hI4
      · exact le_trans (hBmax t (by omega)) hI5
    · intro y
      have hne : i + 1 ≠ lo := by omega
      rw [if_neg hne]
      simp only [Nat.add_sub_cancel]
      exact (hPB y).2
    · intro _
      simp only [Nat.add_sub_cancel]
      exact hFi

theorem flm_fold_dinv {x : List Char} {lo hi : ℕ} (hhx : hi ≤ x.length) :
    ∀ (n i0 : ℕ) (st : FlmState), lo ≤ i0 → i0 + n ≤ hi → FlmDInv x lo hi i0 st →
      FlmDInv x lo hi (i0 + n) ((List.range' i0 n).foldl (flmStep x x lo hi) st) := by
  intro n
  induction n with
  | zero => intro i0 st _ _ h; exact h
  | succ n ih =>
    intro i0 st hle hhi h
    rw [List.range'_succ]
    simp only [List.foldl_cons]
    have hstep := flmStep_dinv hle (by omega) hhx h
    have hrest := ih (i0 + 1) _ (by omega) (by omega) hstep
    have harith : i0 + 1 + n = i0 + (n + 1) := by omega
    rw [harith] at hrest
    exact hrest

theorem backCount_self (x : List Char) (p n : ℕ) (hp : p ≤ x.length) (hn : n ≤ p) :
    backCount x x p p n = n := by
  unfold backCount
  have hall : ∀ d ∈ List.range n,
      (fun d => decide (x.getD (p - d - 1) '*' = x.getD (p - d - 1) '%')) d = true := by
    intro d hd
    have hdn : d < n := List.mem_range.mp hd
    have hlt : p - d - 1 < x.length := by omega
    simp only [decide_eq_true_eq]
    rw [List.getD_eq_getElem x '*' hlt, List.getD_eq_getElem x '%' hlt]
  rw [List.takeWhile_eq_self_iff.mpr hall, List.length_range]

theorem fwdCount_self (x : List Char) (p n : ℕ) (hp : p + n ≤ x.length) :
    fwdCount x x p p n = n := by
  unfold fwdCount
  have hall : ∀ d ∈ List.range n,
      (fun d => decide (x.getD (p + d) '*' = x.getD (p + d) '%')) d = true := by
    intro d hd
    have hdn : d < n := List.mem_range.mp hd
    have hlt : p + d < x.length := by omega
    simp only [decide_eq_true_eq]
    rw [List.getD_eq_getElem x '*' hlt, List.getD_eq_getElem x '%' hlt]
  rw [List.takeWhile_eq_self_iff.mpr hall, List.length_range]

/-- On identical inputs, `find_longest_match` over an aligned window
always returns the full window: whatever (diagonal) block the dynamic
program finds, the two extension loops stretch it to the whole window,
because characters at equal positions are trivially equal. -/
theorem findLongestMatch_self (x : List Char) (lo hi : ℕ) (hlo : lo ≤ hi)
    (hhx : hi ≤ x.length) :
    findLongestMatch x x lo hi lo hi = (lo, lo, hi - lo) := by
  unfold findLongestMatch
  dsimp only
  set st := (List.range' lo (hi - lo)).foldl (flmStep x x lo hi)
    (⟨fun _ => 0, lo, lo, 0⟩ : FlmState) with hst
  have h0 : FlmDInv x lo hi lo (⟨fun _ => 0, lo, lo, 0⟩ : FlmState) := by
    unfold FlmDInv
    dsimp only
    exact ⟨rfl, le_rfl, by omega, fun t ht => by rw [ruW_of_lt ht], fun j => by omega,
      fun j => by simp, fun h => absurd h (lt_irrefl lo)⟩
  have hfold := flm_fold_dinv hhx (hi - lo) lo _ le_rfl (by omega) h0
  have harith : lo + (hi - lo) = hi := by omega
  rw [harith, ← hst] at hfold
  obtain ⟨hdiag, hlo', hub, _, _, _, _⟩ := hfold
  rw [← hdiag, min_self]
  have hd1 : backCount x x st.besti st.besti (st.besti - lo) = st.besti - lo :=
    backCount_self x st.besti (st.besti - lo) (by omega) (by omega)
  rw [hd1]
  have h1 : st.besti - (st.besti - lo) = lo := by omega
  rw [h1]
  have h2 : lo + (st.bestsize + (st.besti - lo)) = st.besti + st.bestsize := by omega
  rw [h2, min_self]
  have hd2 : fwdCount x x (st.besti + st.bestsize) (st.besti + st.bestsize)
      (hi - (st.besti + st.bestsize)) = hi - (st.besti + st.bestsize) :=
    fwdCount_self x _ _ (by omega)
  rw [hd2]
  have h3 : st.bestsize + (st.besti - lo) + (hi - (st.besti + st.bestsize)) = hi - lo := by
    omega
  rw [h3]

theorem matchedTotal_self_degenerate (x : List Char) (f lo : ℕ) (hlo : lo ≤ x.length) :
    matchedTotal x x (f + 1) lo lo lo lo = 0 := by
  conv_lhs => rw [matchedTotal]
  rw [findLongestMatch_self x lo lo le_rfl hlo]
  simp

/-- On identical inputs, every character is matched. -/
theorem matchedTotal_self (x : List Char) (f lo hi : ℕ) (hlo : lo ≤ hi)
    (hhx : hi ≤ x.length) :
    matchedTotal x x (f + 2) lo hi lo hi = hi - lo := by
  conv_lhs => rw [matchedTotal]
  rw [findLongestMatch_self x lo hi hlo hhx]
  dsimp only
  by_cases hz : hi - lo = 0
  · rw [if_pos hz]
    omega
  · rw [if_neg hz]
    have harith : lo + (hi - lo) = hi := by omega
    rw [harith, matchedTotal_self_degenerate x f lo (le_trans hlo hhx),
      matchedTotal_self_degenerate x f hi hhx]
    omega

/-- `SequenceMatcher(None, x, x).ratio()` is exactly `1` for every
string, empty or not. -/
theorem seqRatio_self (x : List Char) : seqRatio x x = 1 := by
  unfold seqRatio
  dsimp only
  by_cases h : x.length + x.length = 0
  · rw [if_pos h]
  · rw [if_neg h]
    have hf : x.length + x.length + 1 = (x.length + x.length - 1) + 2 := by omega
    have hm : matchedTotal x x (x.length + x.length + 1) 0 x.length 0 x.length = x.length := by
      rw [hf]
      have := matchedTotal_self x (x.length + x.length - 1) 0 x.length (Nat.zero_le _) le_rfl
      simpa using this
    rw [hm]
    have hne : ((x.length : ℚ) + (x.length : ℚ)) ≠ 0 := by
      have h0 : 0 < x.length := by omega
      have hq : (0 : ℚ) < (x.length : ℚ) := by exact_mod_cast h0
      intro hc
      linarith
    rw [div_eq_one_iff_eq hne]
    ring






/-! ### Sorting lemmas (TfidfVectorizer vocabulary) -/

theorem insertSorted_perm (le : α → α → Bool) (x : α) :
    ∀ l : List α, (insertSorted le x l).Perm (x :: l) := by
  intro l
  induction l with
  | nil => exact List.Perm.refl _
  | cons y ys ih =>
    unfold insertSorted
    by_cases h : le y x = true
    · rw [if_pos h]
      exact (ih.cons y).trans (List.Perm.swap x y ys)
    · rw [if_neg h]

theorem sortList_fold_perm (le : α → α → Bool) :
    ∀ (l acc : List α),
      (l.foldl (fun acc x => insertSorted le x acc) acc).Perm (acc ++ l) := by
  intro l
  induction l with
  | nil => intro acc; simp
  | cons x xs ih =>
    intro acc
    simp only [List.foldl_cons]
    refine (ih (insertSorted le x acc)).trans ?_
    refine ((insertSorted_perm le x acc).append_right xs).trans ?_
    exact List.perm_middle.symm

theorem sortList_perm (le : α → α → Bool) (l : List α) : (sortList le l).Perm l := by
  simpa [sortList] using sortList_fold_perm le l []

theorem lexLe_total : ∀ u v : List Char, lexLe u v = true ∨ lexLe v u = true := by
  intro u
  induction u with
  | nil => intro v; left; rfl
  | cons c u ih =>
    intro v
    cases v with
    | nil => right; rfl
    | cons d v =>
      by_cases h : c = d
      · subst h
        simp only [lexLe, if_pos rfl]
        exact ih v
      · rcases lt_or_gt_of_ne h with hlt | hgt
        · left
          simp [lexLe, if_neg h, hlt]
        · right
          have hne : d ≠ c := fun e => h e.symm
          simp [lexLe, if_neg hne, hgt]

theorem lexLe_antisymm : ∀ u v : List Char, lexLe u v = true → lexLe v u = true → u = v := by
  intro u
  induction u with
  | nil =>
    intro v _ h2
    cases v with
    | nil => rfl
    | cons d v => simp [lexLe] at h2
  | cons c u ih =>
    intro v h1 h2
    cases v with
    | nil => simp [lexLe] at h1
    | cons d v =>
      by_cases h : c = d
      · subst h
        simp only [lexLe, if_pos rfl] at h1 h2
        rw [ih v h1 h2]
      · have hne : d ≠ c := fun e => h e.symm
        simp only [lexLe, if_neg h, decide_eq_true_eq] at h1
        simp only [lexLe, if_neg hne, decide_eq_true_eq] at h2
        exact absurd h2 (lt_asymm h1)

theorem lexLe_trans : ∀ u v w : List Char,
    lexLe u v = true → lexLe v w = true → lexLe u w = true := by
  intro u
  induction u with
  | nil => intro v w _ _; rfl
  | cons c u ih =>
    intro v w h1 h2
    cases v with
    | nil => simp [lexLe] at h1
    | cons d v =>
      cases w with
      | nil => simp [lexLe] at h2
      | cons e w =>
        by_cases hcd : c = d
        · subst hcd
          simp only [lexLe, if_pos rfl] at h1
          by_cases hde : c = e
          · subst hde
            simp only [lexLe, if_pos rfl] at h2 ⊢
            exact ih v w h1 h2
          · simp only [lexLe, if_neg hde, decide_eq_true_eq] at h2 ⊢
            exact h2
        · simp only [lexLe, if_neg hcd, decide_eq_true_eq] at h1
          by_cases hde : d = e
          · subst hde
            simp only [lexLe, if_neg hcd, decide_eq_true_eq]
            exact h1
          · simp only [lexLe, if_neg hde, decide_eq_true_eq] at h2
            have hce : c < e := lt_trans h1 h2
            simp only [lexLe, if_neg (ne_of_lt hce), decide_eq_true_eq]
            exact hce

theorem insertSorted_pairwise {le : α → α → Bool}
    (htot : ∀ a b : α, le a b = true ∨ le b a = true)
    (htr : ∀ a b c : α, le a b = true → le b c = true → le a c = true)
    (x : α) : ∀ l : List α, l.Pairwise (fun a b => le a b = true) →
      (insertSorted le x l).Pairwise (fun a b => le a b = true) := by
  intro l
  induction l with
  | nil => intro _; simp [insertSorted]
  | cons y ys ih =>
    intro hp
    rw [List.pairwise_cons] at hp
    obtain ⟨hy, hys⟩ := hp
    unfold insertSorted
    by_cases h : le y x = true
    · rw [if_pos h, List.pairwise_cons]
      refine ⟨?_, ih hys⟩
      intro z hz
      have hz' : z ∈ x :: ys := (insertSorted_perm le x ys).mem_iff.mp hz
      rcases List.mem_cons.mp hz' with rfl | hz2
      · exact h
      · exact hy z hz2
    · rw [if_neg h, List.pairwise_cons]
      have hxy : le x y = true := (htot x y).resolve_right h
      refine ⟨?_, List.pairwise_cons.mpr ⟨hy, hys⟩⟩
      intro z hz
      rcases List.mem_cons.mp hz with rfl | hz2
      · exact hxy
      · exact htr x y z hxy (hy z hz2)

theorem sortList_fold_pairwise {le : α → α → Bool}
    (htot : ∀ a b : α, le a b = true ∨ le b a = true)
    (htr : ∀ a b c : α, le a b = true → le b c = true → le a c = true) :
    ∀ (l acc : List α), acc.Pairwise (fun a b => le a b = true) →
      (l.foldl (fun acc x => insertSorted le x acc) acc).Pairwise
        (fun a b => le a b = true) := by
  intro l
  induction l with
  | nil => intro acc h; exact h
  | cons x xs ih =>
    intro acc h
    simp only [List.foldl_cons]
    exact ih _ (insertSorted_pairwise htot htr x acc h)

theorem sortList_pairwise {le : α → α → Bool}
    (htot : ∀ a b : α, le a b = true ∨ le b a = true)
    (htr : ∀ a b c : α, le a b = true → le b c = true → le a c = true)
    (l : List α) : (sortList le l).Pairwise (fun a b => le a b = true) :=
  sortList_fold_pairwise htot htr l [] (List.Pairwise.nil)

theorem lex_sorted_perm_eq {l1 l2 : List (List Char)} (hp : l1.Perm l2)
    (h1 : l1.Pairwise (fun u v => lexLe u v = true))
    (h2 : l2.Pairwise (fun u v => lexLe u v = true)) : l1 = l2 := by
  haveI : IsAntisymm (List Char) (fun u v => lexLe u v = true) :=
    ⟨fun a b => lexLe_antisymm a b⟩
  exact List.eq_of_perm_of_sorted hp h1 h2
/-! ### Vocabulary symmetry and distinctness -/

theorem rawVocab_nodup (a b : String) : (rawVocab a b).Nodup :=
  ((sortList_perm lexLe _).nodup_iff).mpr (List.nodup_dedup _)

theorem rawVocab_comm (a b : String) : rawVocab a b = rawVocab b a := by
  refine lex_sorted_perm_eq ?_ ?_ ?_
  · refine (sortList_perm lexLe _).trans (List.Perm.trans ?_ (sortList_perm lexLe _).symm)
    refine (List.perm_ext_iff_of_nodup (List.nodup_dedup _) (List.nodup_dedup _)).mpr ?_
    intro t
    simp only [List.mem_dedup, List.mem_append]
    exact or_comm
  · exact sortList_pairwise lexLe_total lexLe_trans _
  · exact sortList_pairwise lexLe_total lexLe_trans _

theorem corpusCount_comm (a b : String) (t : List Char) :
    corpusCount a b t = corpusCount b a t := by
  unfold corpusCount
  exact Nat.add_comm _ _

theorem vocabLimited_comm (a b : String) : vocabLimited a b = vocabLimited b a := by
  unfold vocabLimited
  rw [rawVocab_comm]
  have hf : (fun (u w : List Char) => decide (corpusCount a b w ≤ corpusCount a b u)) =
      (fun (u w : List Char) => decide (corpusCount b a w ≤ corpusCount b a u)) := by
    funext u w
    rw [corpusCount_comm a b w, corpusCount_comm a b u]
  rw [hf]

theorem mem_vocabLimited {a b : String} {t : List Char} (h : t ∈ vocabLimited a b) :
    t ∈ rawVocab a b := by
  unfold vocabLimited at h
  by_cases hlen : (rawVocab a b).length ≤ 1000
  · rw [if_pos hlen] at h
    exact h
  · rw [if_neg hlen] at h
    have h1 := (sortList_perm lexLe _).mem_iff.mp h
    have h2 := List.take_subset 1000 _ h1
    exact (sortList_perm _ _).mem_iff.mp h2

theorem vocabLimited_nodup (a b : String) : (vocabLimited a b).Nodup := by
  unfold vocabLimited
  by_cases hlen : (rawVocab a b).length ≤ 1000
  · rw [if_pos hlen]
    exact rawVocab_nodup a b
  · rw [if_neg hlen]
    refine ((sortList_perm lexLe _).nodup_iff).mpr ?_
    refine List.Nodup.sublist (List.take_sublist _ _) ?_
    exact ((sortList_perm _ _).nodup_iff).mpr (rawVocab_nodup a b)

theorem vocabLimited_ne_nil {a b : String} (h : rawVocab a b ≠ []) :
    vocabLimited a b ≠ [] := by
  unfold vocabLimited
  by_cases hlen : (rawVocab a b).length ≤ 1000
  · rw [if_pos hlen]
    exact h
  · rw [if_neg hlen]
    intro hc
    have hl := congrArg List.length hc
    rw [(sortList_perm lexLe _).length_eq, List.length_take,
      (sortList_perm _ _).length_eq] at hl
    simp only [List.length_nil] at hl
    omega

theorem dfCount_comm (a b : String) (t : List Char) : dfCount a b t = dfCount b a t := by
  unfold dfCount
  exact Nat.add_comm _ _

theorem idf_comm (a b : String) (t : List Char) : idf a b t = idf b a t := by
  unfold idf
  rw [dfCount_comm]

theorem tfidfWeight_comm (a b doc : String) (t : List Char) :
    tfidfWeight a b doc t = tfidfWeight b a doc t := by
  unfold tfidfWeight
  rw [idf_comm]

theorem tfidfCosine_comm (a b : String) : tfidfCosine a b = tfidfCosine b a := by
  unfold tfidfCosine
  dsimp only
  rw [vocabLimited_comm]
  have hn : (fun t => tfidfWeight a b a t * tfidfWeight a b b t) =
      (fun t => tfidfWeight b a b t * tfidfWeight b a a t) := by
    funext t
    rw [tfidfWeight_comm a b a t, tfidfWeight_comm a b b t, mul_comm]
  have ha : (fun t => tfidfWeight a b a t ^ 2) = (fun t => tfidfWeight b a a t ^ 2) := by
    funext t
    rw [tfidfWeight_comm a b a t]
  have hb : (fun t => tfidfWeight a b b t ^ 2) = (fun t => tfidfWeight b a b t ^ 2) := by
    funext t
    rw [tfidfWeight_comm a b b t]
  rw [hn, ha, hb, mul_comm (Real.sqrt _) (Real.sqrt _)]

theorem tfidf_similarity_comm (a b : String) :
    tfidf_similarity a b = tfidf_similarity b a := by
  unfold tfidf_similarity
  rw [rawVocab_comm, tfidfCosine_comm]

theorem overlap_comm (a b : String) : overlap_similarity a b = overlap_similarity b a := by
  unfold overlap_similarity
  by_cases h : wordSet a ≠ ∅ ∨ wordSet b ≠ ∅
  · rw [if_pos h, if_pos (Or.symm h), Finset.inter_comm, Finset.union_comm]
  · rw [if_neg h, if_neg (fun h2 => h (Or.symm h2))]

theorem ngram_comm (a b : String) : ngram_similarity a b = ngram_similarity b a := by
  unfold ngram_similarity
  by_cases h : charTrigrams a ≠ ∅ ∨ charTrigrams b ≠ ∅
  · rw [if_pos h, if_pos (Or.symm h), Finset.inter_comm, Finset.union_comm]
  · rw [if_neg h, if_neg (fun h2 => h (Or.symm h2))]
/-! ### TF-IDF range and identical-input lemmas -/

theorem dfCount_le_two (a b : String) (t : List Char) : dfCount a b t ≤ 2 := by
  unfold dfCount
  split_ifs <;> omega

theorem idf_nonneg (a b : String) (t : List Char) : 0 ≤ idf a b t := by
  unfold idf
  have hdf : (dfCount a b t : ℝ) ≤ 2 := by exact_mod_cast dfCount_le_two a b t
  have hdf0 : (0 : ℝ) ≤ (dfCount a b t : ℝ) := Nat.cast_nonneg _
  have h1 : (1 : ℝ) ≤ 3 / (1 + (dfCount a b t : ℝ)) := by
    rw [le_div_iff₀ (by linarith)]
    linarith
  have := Real.log_nonneg h1
  linarith

theorem tfidfWeight_nonneg (a b doc : String) (t : List Char) :
    0 ≤ tfidfWeight a b doc t :=
  mul_nonneg (Nat.cast_nonneg _) (idf_nonneg a b t)

theorem map_sum_sq_nonneg (l : List (List Char)) (f : List Char → ℝ) :
    0 ≤ (l.map (fun t => f t ^ 2)).sum := by
  refine List.sum_nonneg ?_
  intro x hx
  obtain ⟨t, _, rfl⟩ := List.mem_map.mp hx
  exact sq_nonneg _

theorem list_dot_le_sqrt {l : List (List Char)} (hl : l.Nodup) (f g : List Char → ℝ)
    (hf : ∀ t, 0 ≤ f t) (hg : ∀ t, 0 ≤ g t) :
    (l.map (fun t => f t * g t)).sum ≤
      Real.sqrt ((l.map (fun t => f t ^ 2)).sum) *
        Real.sqrt ((l.map (fun t => g t ^ 2)).sum) := by
  have hcs := Finset.sum_mul_sq_le_sq_mul_sq l.toFinset f g
  rw [List.sum_toFinset (fun i => f i * g i) hl, List.sum_toFinset (fun i => f i ^ 2) hl,
    List.sum_toFinset (fun i => g i ^ 2) hl] at hcs
  have hdot : 0 ≤ (l.map (fun t => f t * g t)).sum := by
    refine List.sum_nonneg ?_
    intro x hx
    obtain ⟨t, _, rfl⟩ := List.mem_map.mp hx
    exact mul_nonneg (hf t) (hg t)
  calc (l.map (fun t => f t * g t)).sum
      = Real.sqrt (((l.map (fun t => f t * g t)).sum) ^ 2) := (Real.sqrt_sq hdot).symm
    _ ≤ Real.sqrt (((l.map (fun t => f t ^ 2)).sum) * ((l.map (fun t => g t ^ 2)).sum)) :=
        Real.sqrt_le_sqrt hcs
    _ = _ := Real.sqrt_mul (map_sum_sq_nonneg l f) _

theorem tfidfCosine_bounds (a b : String) :
    0 ≤ tfidfCosine a b ∧ tfidfCosine a b ≤ 1 := by
  unfold tfidfCosine
  dsimp only
  have hdot : 0 ≤ ((vocabLimited a b).map
      (fun t => tfidfWeight a b a t * tfidfWeight a b b t)).sum := by
    refine List.sum_nonneg ?_
    intro x hx
    obtain ⟨t, _, rfl⟩ := List.mem_map.mp hx
    exact mul_nonneg (tfidfWeight_nonneg a b a t) (tfidfWeight_nonneg a b b t)
  have hden : 0 ≤ Real.sqrt (((vocabLimited a b).map (fun t => tfidfWeight a b a t ^ 2)).sum) *
      Real.sqrt (((vocabLimited a b).map (fun t => tfidfWeight a b b t ^ 2)).sum) :=
    mul_nonneg (Real.sqrt_nonneg _) (Real.sqrt_nonneg _)
  refine ⟨div_nonneg hdot hden, ?_⟩
  rcases eq_or_lt_of_le hden with hz | hpos
  · rw [← hz, div_zero]
    norm_num
  · rw [div_le_one hpos]
    exact list_dot_le_sqrt (vocabLimited_nodup a b) _ _
      (tfidfWeight_nonneg a b a) (tfidfWeight_nonneg a b b)

theorem tfidf_similarity_bounds (a b : String) :
    0 ≤ tfidf_similarity a b ∧ tfidf_similarity a b ≤ 1 := by
  unfold tfidf_similarity
  by_cases h : rawVocab a b = []
  · rw [if_pos h]
    norm_num
  · rw [if_neg h]
    exact tfidfCosine_bounds a b

theorem mem_rawVocab_self {x : String} {t : List Char} :
    t ∈ rawVocab x x ↔ t ∈ sklearnTerms x := by
  unfold rawVocab
  rw [(sortList_perm lexLe _).mem_iff]
  simp only [List.mem_dedup, List.mem_append, or_self]

theorem idf_self {x : String} {t : List Char} (h : t ∈ sklearnTerms x) : idf x x t = 1 := by
  unfold idf dfCount
  rw [if_pos h]
  norm_num

theorem tfidf_self {x : String} (h : sklearnTerms x ≠ []) : tfidf_similarity x x = 1 := by
  have hvoc : rawVocab x x ≠ [] := by
    obtain ⟨t, ht⟩ := List.exists_mem_of_ne_nil _ h
    intro hc
    have hm := mem_rawVocab_self.mpr ht
    rw [hc] at hm
    exact absurd hm (List.not_mem_nil t)
  unfold tfidf_similarity
  rw [if_neg hvoc]
  unfold tfidfCosine
  dsimp only
  have hw : ∀ t ∈ vocabLimited x x, 0 < tfidfWeight x x x t := by
    intro t ht
    have ht' : t ∈ sklearnTerms x := mem_rawVocab_self.mp (mem_vocabLimited ht)
    unfold tfidfWeight
    rw [idf_self ht', mul_one]
    exact_mod_cast List.count_pos_iff.mpr ht'
  have hnum : ((vocabLimited x x).map
      (fun t => tfidfWeight x x x t * tfidfWeight x x x t)).sum =
      ((vocabLimited x x).map (fun t => tfidfWeight x x x t ^ 2)).sum := by
    have he : (fun t => tfidfWeight x x x t * tfidfWeight x x x t) =
        (fun t => tfidfWeight x x x t ^ 2) := by
      funext t
      rw [pow_two]
    rw [he]
  have hS : 0 < ((vocabLimited x x).map (fun t => tfidfWeight x x x t ^ 2)).sum := by
    refine List.sum_pos _ ?_ ?_
    · intro y hy
      obtain ⟨t, ht, rfl⟩ := List.mem_map.mp hy
      exact pow_pos (hw t ht) 2
    · intro hc
      exact vocabLimited_ne_nil hvoc (List.map_eq_nil_iff.mp hc)
  rw [hnum, Real.mul_self_sqrt hS.le]
  exact div_self hS.ne'

/-! ### Jaccard range and identical-input lemmas -/

theorem overlap_bounds (a b : String) :
    0 ≤ overlap_similarity a b ∧ overlap_similarity a b ≤ 1 := by
  unfold overlap_similarity
  by_cases h : wordSet a ≠ ∅ ∨ wordSet b ≠ ∅
  · rw [if_pos h]
    have hsub : (wordSet a ∩ wordSet b).card ≤ (wordSet a ∪ wordSet b).card :=
      Finset.card_le_card Finset.inter_subset_union
    have hne : wordSet a ∪ wordSet b ≠ ∅ := by
      intro hc
      rw [Finset.union_eq_empty] at hc
      rcases h with h | h
      · exact h hc.1
      · exact h hc.2
    have hpos : (0 : ℚ) < ((wordSet a ∪ wordSet b).card : ℚ) := by
      exact_mod_cast Finset.card_pos.mpr (Finset.nonempty_iff_ne_empty.mpr hne)
    constructor
    · exact div_nonneg (Nat.cast_nonneg _) (Nat.cast_nonneg _)
    · rw [div_le_one hpos]
      exact_mod_cast hsub
  · rw [if_neg h]
    norm_num

theorem ngram_bounds (a b : String) :
    0 ≤ ngram_similarity a b ∧ ngram_similarity a b ≤ 1 := by
  unfold ngram_similarity
  by_cases h : charTrigrams a ≠ ∅ ∨ charTrigrams b ≠ ∅
  · rw [if_pos h]
    have hsub : (charTrigrams a ∩ charTrigrams b).card ≤ (charTrigrams a ∪ charTrigrams b).card :=
      Finset.card_le_card Finset.inter_subset_union
    have hne : charTrigrams a ∪ charTrigrams b ≠ ∅ := by
      intro hc
      rw [Finset.union_eq_empty] at hc
      rcases h with h | h
      · exact h hc.1
      · exact h hc.2
    have hpos : (0 : ℚ) < ((charTrigrams a ∪ charTrigrams b).card : ℚ) := by
      exact_mod_cast Finset.card_pos.mpr (Finset.nonempty_iff_ne_empty.mpr hne)
    constructor
    · exact div_nonneg (Nat.cast_nonneg _) (Nat.cast_nonneg _)
    · rw [div_le_one hpos]
      exact_mod_cast hsub
  · rw [if_neg h]
    norm_num

theorem overlap_self {x : String} (h : wordSet x ≠ ∅) : overlap_similarity x x = 1 := by
  unfold overlap_similarity
  rw [if_pos (Or.inl h), Finset.inter_self, Finset.union_self]
  refine div_self ?_
  exact_mod_cast Finset.card_ne_zero_of_mem
    (Finset.nonempty_iff_ne_empty.mpr h).choose_spec
theorem charTrigrams_ne_empty {x : String} (h : 3 ≤ x.length) : charTrigrams x ≠ ∅ := by
  have hd : 3 ≤ x.data.length := h
  unfold charTrigrams
  refine Finset.ne_empty_of_mem (a := (x.data.drop 0).take 3) ?_
  rw [List.mem_toFinset]
  exact List.mem_map.mpr ⟨0, List.mem_range.mpr (by omega), rfl⟩

theorem ngram_self {x : String} (h : charTrigrams x ≠ ∅) : ngram_similarity x x = 1 := by
  unfold ngram_similarity
  rw [if_pos (Or.inl h), Finset.inter_self, Finset.union_self]
  refine div_self ?_
  exact_mod_cast Finset.card_ne_zero_of_mem
    (Finset.nonempty_iff_ne_empty.mpr h).choose_spec

theorem isPySpace_false_of_upper {d : Char} (h : 65 ≤ d.toNat ∧ d.toNat ≤ 90) :
    isPySpace d = false := by
  simp only [isPySpace, Bool.or_eq_false_iff, Bool.and_eq_false_iff,
    decide_eq_false_iff_not]
  omega

theorem splitRunsAux_eq_nil {sep : Char → Bool} :
    ∀ (l acc : List Char), splitRunsAux sep l acc = [] →
      acc = [] ∧ ∀ c ∈ l, sep c = true := by
  intro l
  induction l with
  | nil =>
    intro acc h
    simp only [splitRunsAux] at h
    rcases acc with _ | ⟨a, acc⟩
    · exact ⟨rfl, by simp⟩
    · simp only [List.isEmpty_cons, Bool.false_eq_true, if_false] at h
      exact absurd h (by simp)
  | cons c t ih =>
    intro acc h
    simp only [splitRunsAux] at h
    by_cases hs : sep c
    · rw [if_pos hs] at h
      rcases acc with _ | ⟨a, acc⟩
      · obtain ⟨_, ht⟩ := ih [] (by simpa using h)
        refine ⟨rfl, ?_⟩
        intro d hd
        rcases List.mem_cons.mp hd with rfl | hd2
        · exact hs
        · exact ht d hd2
      · simp only [List.isEmpty_cons, Bool.false_eq_true, if_false] at h
        exact absurd h (by simp)
    · rw [if_neg hs] at h
      obtain ⟨hacc, _⟩ := ih (c :: acc) h
      exact absurd hacc (by simp)

theorem splitRuns_ne_nil {sep : Char → Bool} {l : List Char} {c : Char}
    (hc : c ∈ l) (hs : sep c = false) : splitRuns sep l ≠ [] := by
  intro h
  have := (splitRunsAux_eq_nil l [] h).2 c hc
  rw [hs] at this
  exact Bool.false_ne_true this

theorem sklearnTokens_ne_nil_of_terms {x : String} (h : sklearnTerms x ≠ []) :
    sklearnTokens x ≠ [] := by
  intro hc
  apply h
  unfold sklearnTerms
  rw [hc]
  rfl

theorem wordSet_ne_empty_of_tokens {x : String} (h : sklearnTokens x ≠ []) :
    wordSet x ≠ ∅ := by
  obtain ⟨w, hw⟩ := List.exists_mem_of_ne_nil _ h
  unfold sklearnTokens at hw
  have hw1 := List.mem_of_mem_filter hw
  have hw2 := List.mem_of_mem_filter hw1
  obtain ⟨hwne, hwchars⟩ := splitRuns_words w hw2
  obtain ⟨c, hc⟩ := List.exists_mem_of_ne_nil _ hwne
  have hcw : isPyWord c = true := by
    have := hwchars c hc
    simpa using this
  have hcl : c ∈ x.data.map lowerChar := mem_of_mem_splitRuns hw2 hc
  obtain ⟨d, hd, hdc⟩ := List.mem_map.mp hcl
  have hdsp : isPySpace d = false := by
    by_cases hu : 65 ≤ d.toNat ∧ d.toNat ≤ 90
    · exact isPySpace_false_of_upper hu
    · rw [lowerChar_fixed hu] at hdc
      subst hdc
      exact isPyWord_not_space hcw
  unfold wordSet
  intro hempty
  rw [List.toFinset_eq_empty_iff] at hempty
  exact splitRuns_ne_nil hd hdsp hempty

/-! ### Sequence-ratio degenerate cases -/

theorem seqRatio_nil_left {l : List Char} (h : l ≠ []) : seqRatio [] l = 0 := by
  unfold seqRatio
  dsimp only
  have hl : l.length ≠ 0 := fun hc => h (List.length_eq_zero.mp hc)
  rw [if_neg (by simpa using hl)]
  have hm := matchedTotal_le [] l (([] : List Char).length + l.length + 1)
    0 ([] : List Char).length 0 l.length (by simp) (by omega)
  simp only [List.length_nil] at hm
  have hm0 : matchedTotal [] l (([] : List Char).length + l.length + 1)
      0 ([] : List Char).length 0 l.length = 0 := by
    simp only [List.length_nil] at hm ⊢
    omega
  rw [hm0]
  norm_num

theorem seqRatio_nil_right {l : List Char} (h : l ≠ []) : seqRatio l [] = 0 := by
  unfold seqRatio
  dsimp only
  have hl : l.length ≠ 0 := fun hc => h (List.length_eq_zero.mp hc)
  rw [if_neg (by simpa using hl)]
  have hm := matchedTotal_le l [] (l.length + ([] : List Char).length + 1)
    0 l.length 0 ([] : List Char).length (by omega) (by simp)
  simp only [List.length_nil] at hm
  have hm0 : matchedTotal l [] (l.length + ([] : List Char).length + 1)
      0 l.length 0 ([] : List Char).length = 0 := by
    simp only [List.length_nil] at hm ⊢
    omega
  rw [hm0]
  norm_num

theorem seqRatio_nil_comm (l : List Char) : seqRatio [] l = seqRatio l [] := by
  cases l with
  | nil => rfl
  | cons c t =>
    rw [seqRatio_nil_left (by simp), seqRatio_nil_right (by simp)]

/-- The asymmetry of `calculate_text_similarity` is exactly `0.3` times
the asymmetry of the `difflib` ratio: the other three signals are
symmetric. -/
theorem score_sub (t1 t2 : String) :
    calculate_text_similarity t1 t2 - calculate_text_similarity t2 t1 =
      0.3 * (((seqRatio t1.data t2.data : ℚ) : ℝ) - ((seqRatio t2.data t1.data : ℚ) : ℝ)) := by
  unfold calculate_text_similarity
  by_cases h1 : t1 = ""
  · subst h1
    rw [if_pos (Or.inl rfl), if_pos (Or.inr rfl)]
    have hd : ("" : String).data = [] := rfl
    rw [hd, seqRatio_nil_comm t2.data]
    ring
  · by_cases h2 : t2 = ""
    · subst h2
      rw [if_pos (Or.inr rfl), if_pos (Or.inl rfl)]
      have hd : ("" : String).data = [] := rfl
      rw [hd, seqRatio_nil_comm t1.data]
      ring
    · rw [if_neg (not_or.mpr ⟨h1, h2⟩), if_neg (not_or.mpr ⟨h2, h1⟩)]
      rw [tfidf_similarity_comm t2 t1, overlap_comm t2 t1, ngram_comm t2 t1]
      ring
/-! ### Concrete sequence-ratio values -/

theorem seqRatio_ab_bacb : seqRatio "ab".data "bacb".data = 2 / 3 := by
  unfold seqRatio
  dsimp only
  rw [(by decide : ("ab" : String).data.length = 2),
    (by decide : ("bacb" : String).data.length = 4)]
  rw [if_neg (by decide : ¬(2 + 4 = 0))]
  rw [(by decide : matchedTotal "ab".data "bacb".data (2 + 4 + 1) 0 2 0 4 = 2)]
  norm_num

theorem seqRatio_bacb_ab : seqRatio "bacb".data "ab".data = 1 / 3 := by
  unfold seqRatio
  dsimp only
  rw [(by decide : ("bacb" : String).data.length = 4),
    (by decide : ("ab" : String).data.length = 2)]
  rw [if_neg (by decide : ¬(4 + 2 = 0))]
  rw [(by decide : matchedTotal "bacb".data "ab".data (4 + 2 + 1) 0 4 0 2 = 1)]
  norm_num

/-! ### Claim theorems: the similarity score -/

/-- C1 (corrected): the original claim is false (see the
counterexample below: trigrams vanish on inputs shorter than three
characters).  Amended statement: on a non-degenerate identical input —
one that produces at least one `TfidfVectorizer` term and has at least
three characters — `calculate_text_similarity(x, x)` is exactly 1,
because all four signals are 1 there. -/
theorem calculate_text_similarity_self_amended (x : String)
    (h1 : sklearnTerms x ≠ []) (h2 : 3 ≤ x.length) :
    calculate_text_similarity x x = 1 := by
  have hx : x ≠ "" := by
    intro hc
    subst hc
    exact absurd h2 (by decide)
  unfold calculate_text_similarity
  rw [if_neg (not_or.mpr ⟨hx, hx⟩)]
  rw [seqRatio_self, tfidf_self h1,
    overlap_self (wordSet_ne_empty_of_tokens (sklearnTokens_ne_nil_of_terms h1)),
    ngram_self (charTrigrams_ne_empty h2)]
  push_cast
  norm_num

/-- Witness for C1 (amended) at the concrete input `"abc"`. -/
theorem calculate_text_similarity_self_amended_witness :
    sklearnTerms "abc" ≠ [] ∧ 3 ≤ ("abc" : String).length ∧
      calculate_text_similarity "abc" "abc" = 1 :=
  ⟨by decide, by decide, calculate_text_similarity_self_amended "abc" (by decide) (by decide)⟩

/-- Counterexample to C1 as stated: `"ab"` is non-empty, but the
trigram signal is 0 (no 3-character window exists), so the blend is
`0.3 + 0.3 + 0.2 + 0 = 0.8`, not 1. -/
theorem calculate_text_similarity_self_counterexample :
    ("ab" : String) ≠ "" ∧ calculate_text_similarity "ab" "ab" ≠ 1 := by
  refine ⟨by decide, ?_⟩
  unfold calculate_text_similarity
  rw [if_neg (by decide : ¬(("ab" : String) = "" ∨ ("ab" : String) = ""))]
  rw [seqRatio_self, tfidf_self (by decide : sklearnTerms "ab" ≠ []),
    overlap_self (by decide : wordSet "ab" ≠ ∅),
    (by decide : ngram_similarity "ab" "ab" = 0)]
  push_cast
  norm_num

/-- C3 (corrected): the original symmetry claim is false (see the
counterexample below).  Amended statement: three of the four signals —
TF-IDF cosine, word-set Jaccard, character-trigram Jaccard — are
symmetric, and the whole asymmetry of the blend is `0.3` times the
asymmetry of the `difflib.SequenceMatcher` ratio, which depends on the
argument order. -/
theorem calculate_text_similarity_symmetry_amended (a b : String) :
    tfidf_similarity a b = tfidf_similarity b a ∧
      overlap_similarity a b = overlap_similarity b a ∧
      ngram_similarity a b = ngram_similarity b a ∧
      calculate_text_similarity a b - calculate_text_similarity b a =
        0.3 * (((seqRatio a.data b.data : ℚ) : ℝ) - ((seqRatio b.data a.data : ℚ) : ℝ)) :=
  ⟨tfidf_similarity_comm a b, overlap_comm a b, ngram_comm a b, score_sub a b⟩

/-- Counterexample to C3 as stated: `SequenceMatcher(None, a, b).ratio()`
is not symmetric (its greedy matching depends on which string is `b`),
and the blend inherits the asymmetry: at `("ab", "bacb")` the ratios
are `2/3` and `1/3`, so the two scores differ by `0.1`. -/
theorem calculate_text_similarity_symmetry_counterexample :
    calculate_text_similarity "ab" "bacb" ≠ calculate_text_similarity "bacb" "ab" := by
  intro hc
  have h := score_sub "ab" "bacb"
  rw [hc, sub_self, seqRatio_ab_bacb, seqRatio_bacb_ab] at h
  push_cast at h
  norm_num at h

/-- C4: the score is always in `[0, 1]` (each signal is in `[0, 1]` and
the weights sum to 1), the empty string on either side yields exactly
0, and the function is total in this embedding — the bare `except`
around the TF-IDF step turns the empty-vocabulary `ValueError` into
`0.0`, so no exception escapes. -/
theorem calculate_text_similarity_range_and_empty (a b : String) :
    (0 ≤ calculate_text_similarity a b ∧ calculate_text_similarity a b ≤ 1) ∧
      calculate_text_similarity "" b = 0 ∧ calculate_text_similarity a "" = 0 := by
  refine ⟨?_, ?_, ?_⟩
  · unfold calculate_text_similarity
    by_cases h : a = "" ∨ b = ""
    · rw [if_pos h]
      norm_num
    · rw [if_neg h]
      obtain ⟨hs1, hs2⟩ := seqRatio_bounds a.data b.data
      obtain ⟨ht1, ht2⟩ := tfidf_similarity_bounds a b
      obtain ⟨ho1, ho2⟩ := overlap_bounds a b
      obtain ⟨hn1, hn2⟩ := ngram_bounds a b
      have hs1' : (0 : ℝ) ≤ ((seqRatio a.data b.data : ℚ) : ℝ) := by exact_mod_cast hs1
      have hs2' : ((seqRatio a.data b.data : ℚ) : ℝ) ≤ 1 := by exact_mod_cast hs2
      have ho1' : (0 : ℝ) ≤ ((overlap_similarity a b : ℚ) : ℝ) := by exact_mod_cast ho1
      have ho2' : ((overlap_similarity a b : ℚ) : ℝ) ≤ 1 := by exact_mod_cast ho2
      have hn1' : (0 : ℝ) ≤ ((ngram_similarity a b : ℚ) : ℝ) := by exact_mod_cast hn1
      have hn2' : ((ngram_similarity a b : ℚ) : ℝ) ≤ 1 := by exact_mod_cast hn2
      constructor <;> nlinarith
  · unfold calculate_text_similarity
    rw [if_pos (Or.inl rfl)]
  · unfold calculate_text_similarity
    rw [if_pos (Or.inr rfl)]
/-! ### Tier-pass lemmas -/

theorem mem_tierCands {n : ℕ} {M : ℕ → ℕ → ℝ} {inTier : ℝ → Prop} {blocked : Finset ℕ}
    {st : PassState} {i j : ℕ} :
    j ∈ tierCands n M inTier blocked st i ↔
      j < n ∧ i < j ∧ j ∉ st.processed ∧ j ∉ blocked ∧ inTier (M i j) := by
  unfold tierCands
  simp only [List.mem_filter, List.mem_range, decide_eq_true_eq]

theorem tierCands_nodup (n : ℕ) (M : ℕ → ℕ → ℝ) (inTier : ℝ → Prop) (blocked : Finset ℕ)
    (st : PassState) (i : ℕ) : (tierCands n M inTier blocked st i).Nodup :=
  List.Nodup.filter _ (List.nodup_range n)

theorem tierStep_skip {n : ℕ} {M : ℕ → ℕ → ℝ} {inTier : ℝ → Prop} {blocked : Finset ℕ}
    {level : String} {thr : ℝ} {stem : String} {issues : List Issue}
    {st : PassState} {i : ℕ} (h : i ∈ st.processed ∨ i ∈ blocked) :
    tierStep n M inTier blocked level thr stem issues st i = st := by
  unfold tierStep
  rw [if_pos h]

theorem tierStep_noMatch {n : ℕ} {M : ℕ → ℕ → ℝ} {inTier : ℝ → Prop} {blocked : Finset ℕ}
    {level : String} {thr : ℝ} {stem : String} {issues : List Issue}
    {st : PassState} {i : ℕ} (h1 : i ∉ st.processed) (h2 : i ∉ blocked)
    (h3 : tierCands n M inTier blocked st i = []) :
    tierStep n M inTier blocked level thr stem issues st i = st := by
  unfold tierStep
  rw [if_neg (not_or.mpr ⟨h1, h2⟩)]
  dsimp only
  rw [if_pos h3]

theorem tierStep_emit {n : ℕ} {M : ℕ → ℕ → ℝ} {inTier : ℝ → Prop} {blocked : Finset ℕ}
    {level : String} {thr : ℝ} {stem : String} {issues : List Issue}
    {st : PassState} {i : ℕ} (h1 : i ∉ st.processed) (h2 : i ∉ blocked)
    (h3 : tierCands n M inTier blocked st i ≠ []) :
    tierStep n M inTier blocked level thr stem issues st i =
      { groups := st.groups ++ [(stem ++ toString st.counter,
          { issues := (i :: tierCands n M inTier blocked st i).map
              (fun k => issues.getD k default),
            members := i :: tierCands n M inTier blocked st i,
            avg_similarity := avgSim M (i :: tierCands n M inTier blocked st i),
            similarity_level := level,
            threshold_used := thr })],
        counter := st.counter + 1,
        processed := st.processed ∪ (i :: tierCands n M inTier blocked st i).toFinset } := by
  unfold tierStep
  rw [if_neg (not_or.mpr ⟨h1, h2⟩)]
  dsimp only
  rw [if_neg h3]

theorem tierStep_inv {n : ℕ} {M : ℕ → ℕ → ℝ} {inTier : ℝ → Prop} {blocked : Finset ℕ}
    {level : String} {thr : ℝ} {stem : String} {issues : List Issue}
    {G0 : List (String × SGroup)} {st : PassState} {i : ℕ} (hin : i < n)
    (h : PassInv n M blocked level thr G0 st) :
    PassInv n M blocked level thr G0
      (tierStep n M inTier blocked level thr stem issues st i) := by
  obtain ⟨new, hg, hgood, hpw, hpb, hpn⟩ := h
  by_cases hskip : i ∈ st.processed ∨ i ∈ blocked
  · rw [tierStep_skip hskip]
    exact ⟨new, hg, hgood, hpw, hpb, hpn⟩
  · push_neg at hskip
    obtain ⟨hip, hib⟩ := hskip
    by_cases hc : tierCands n M inTier blocked st i = []
    · rw [tierStep_noMatch hip hib hc]
      exact ⟨new, hg, hgood, hpw, hpb, hpn⟩
    · rw [tierStep_emit hip hib hc]
      have hjmem : ∀ j ∈ tierCands n M inTier blocked st i,
          j < n ∧ i < j ∧ j ∉ st.processed ∧ j ∉ blocked := by
        intro j hj
        obtain ⟨ha, hb', hc', hd', _⟩ := mem_tierCands.mp hj
        exact ⟨ha, hb', hc', hd'⟩
      have hmemfacts : ∀ m ∈ i :: tierCands n M inTier blocked st i,
          m < n ∧ m ∉ blocked ∧ m ∉ st.processed := by
        intro m hm
        rcases List.mem_cons.mp hm with rfl | hm2
        · exact ⟨hin, hib, hip⟩
        · obtain ⟨ha, _, hc', hd'⟩ := hjmem m hm2
          exact ⟨ha, hd', hc'⟩
      refine ⟨new ++ [(stem ++ toString st.counter,
        { issues := (i :: tierCands n M inTier blocked st i).map
            (fun k => issues.getD k default),
          members := i :: tierCands n M inTier blocked st i,
          avg_similarity := avgSim M (i :: tierCands n M inTier blocked st i),
          similarity_level := level,
          threshold_used := thr })], ?_, ?_, ?_, ?_, ?_⟩
      · dsimp only
        rw [hg, List.append_assoc]
      · intro g' hg'
        rcases List.mem_append.mp hg' with hold | hnew
        · obtain ⟨q1, q2, q3, q4, q5, q6, q7, q8⟩ := hgood g' hold
          exact ⟨q1, q2, q3, q4, q5.trans Finset.subset_union_left, q6, q7, q8⟩
        · rw [List.mem_singleton] at hnew
          subst hnew
          dsimp only
          refine ⟨?_, ?_, ?_, ?_, ?_, rfl, rfl, rfl⟩
          · rw [List.nodup_cons]
            refine ⟨?_, tierCands_nodup n M inTier blocked st i⟩
            intro hmem
            exact absurd rfl (Nat.ne_of_lt (hjmem i hmem).2.1)
          · rw [List.length_cons]
            have := List.length_pos.mpr hc
            omega
          · intro m hm
            exact (hmemfacts m hm).1
          · intro m hm
            exact (hmemfacts m hm).2.1
          · intro m hm
            rw [List.mem_toFinset] at hm
            exact Finset.mem_union_right _ (List.mem_toFinset.mpr hm)
      · rw [List.pairwise_append]
        refine ⟨hpw, List.pairwise_singleton _ _, ?_⟩
        intro g1 hg1 g2 hg2 m hm
        rw [List.mem_singleton] at hg2
        subst hg2
        dsimp only
        intro hm2
        have hmp : m ∈ st.processed := by
          have hsub := (hgood g1 hg1).2.2.2.2.1
          exact hsub (List.mem_toFinset.mpr hm)
        exact (hmemfacts m hm2).2.2 hmp
      · intro m hm
        rcases Finset.mem_union.mp hm with hold | hnew
        · exact hpb m hold
        · rw [List.mem_toFinset] at hnew
          exact (hmemfacts m hnew).2.1
      · intro m hm
        rcases Finset.mem_union.mp hm with hold | hnew
        · exact hpn m hold
        · rw [List.mem_toFinset] at hnew
          exact (hmemfacts m hnew).1

theorem tierPass_fold_inv {n : ℕ} {M : ℕ → ℕ → ℝ} {inTier : ℝ → Prop} {blocked : Finset ℕ}
    {level : String} {thr : ℝ} {stem : String} {issues : List Issue}
    {G0 : List (String × SGroup)} :
    ∀ (l : List ℕ), (∀ i ∈ l, i < n) → ∀ st : PassState,
      PassInv n M blocked level thr G0 st →
      PassInv n M blocked level thr G0
        (l.foldl (tierStep n M inTier blocked level thr stem issues) st) := by
  intro l
  induction l with
  | nil => intro _ st h; exact h
  | cons x xs ih =>
    intro hl st h
    simp only [List.foldl_cons]
    exact ih (fun i hi => hl i (List.mem_cons_of_mem x hi)) _
      (tierStep_inv (hl x (List.mem_cons_self x xs)) h)

theorem tierPass_spec (n : ℕ) (M : ℕ → ℕ → ℝ) (inTier : ℝ → Prop) (blocked : Finset ℕ)
    (level : String) (thr : ℝ) (stem : String) (issues : List Issue)
    (G0 : List (String × SGroup)) (c0 : ℕ) :
    PassInv n M blocked level thr G0
      (tierPass n M inTier blocked level thr stem issues ⟨G0, c0, ∅⟩) := by
  unfold tierPass
  refine tierPass_fold_inv (List.range n) (fun i hi => List.mem_range.mp hi) _ ?_
  exact ⟨[], (List.append_nil G0).symm, by simp, List.Pairwise.nil, by simp, by simp⟩
/-! ### Pairwise-average lemmas -/

theorem simMatrix_symm (issues : List Issue) (i j : ℕ) :
    simMatrix issues i j = simMatrix issues j i := by
  unfold simMatrix
  by_cases h : i = j
  · subst h
    rfl
  · rw [if_neg h, if_neg (fun e => h e.symm)]
    dsimp only
    rw [min_comm, max_comm]

theorem offDiag_sum_card (M : ℕ → ℕ → ℝ) (hsym : ∀ i j, M i j = M j i) :
    ∀ mem : List ℕ, mem.Nodup →
      (∑ p ∈ mem.toFinset.offDiag, M p.1 p.2) =
          2 * ((pairsList mem).map (fun p => M p.1 p.2)).sum ∧
        mem.toFinset.offDiag.card = 2 * (pairsList mem).length := by
  intro mem
  induction mem with
  | nil =>
    intro _
    constructor <;> simp [pairsList]
  | cons x xs ih =>
    intro hnd
    rw [List.nodup_cons] at hnd
    obtain ⟨hx, hnd⟩ := hnd
    obtain ⟨ihs, ihc⟩ := ih hnd
    have hxs : x ∉ xs.toFinset := fun hcon => hx (List.mem_toFinset.mp hcon)
    have hd2 : Disjoint xs.toFinset.offDiag ({x} ×ˢ xs.toFinset) := by
      rw [Finset.disjoint_left]
      rintro ⟨p1, p2⟩ hp hq
      rw [Finset.mem_offDiag] at hp
      rw [Finset.mem_product, Finset.mem_singleton] at hq
      exact hxs (hq.1 ▸ hp.1)
    have hd1 : Disjoint (xs.toFinset.offDiag ∪ {x} ×ˢ xs.toFinset)
        (xs.toFinset ×ˢ {x}) := by
      rw [Finset.disjoint_left]
      rintro ⟨p1, p2⟩ hp hq
      rw [Finset.mem_product, Finset.mem_singleton] at hq
      rcases Finset.mem_union.mp hp with hp | hp
      · rw [Finset.mem_offDiag] at hp
        exact hxs (hq.2 ▸ hp.2.1)
      · rw [Finset.mem_product, Finset.mem_singleton] at hp
        exact hxs (hq.2 ▸ hp.2)
    have hsum1 : (∑ p ∈ {x} ×ˢ xs.toFinset, M p.1 p.2) = ∑ y ∈ xs.toFinset, M x y := by
      rw [Finset.sum_product, Finset.sum_singleton]
    have hsum2 : (∑ p ∈ xs.toFinset ×ˢ {x}, M p.1 p.2) = ∑ y ∈ xs.toFinset, M x y := by
      rw [Finset.sum_product]
      refine Finset.sum_congr rfl ?_
      intro y _
      rw [Finset.sum_singleton]
      exact hsym y x
    have hlsum : (xs.map (fun y => M x y)).sum = ∑ y ∈ xs.toFinset, M x y :=
      (List.sum_toFinset (fun y => M x y) hnd).symm
    have hpl : pairsList (x :: xs) = xs.map (fun y => (x, y)) ++ pairsList xs := rfl
    have hmapmap : ((xs.map (fun y => (x, y))).map (fun p => M p.1 p.2)) =
        xs.map (fun y => M x y) := by
      rw [List.map_map]
      rfl
    have hcard : xs.toFinset.card = xs.length := List.toFinset_card_of_nodup hnd
    constructor
    · rw [List.toFinset_cons, Finset.offDiag_insert x hxs, Finset.sum_union hd1,
        Finset.sum_union hd2, hsum1, hsum2, ihs, hpl, List.map_append, List.sum_append,
        hmapmap, hlsum]
      ring
    · rw [List.toFinset_cons, Finset.offDiag_insert x hxs, Finset.card_union_of_disjoint hd1,
        Finset.card_union_of_disjoint hd2, ihc, hpl, List.length_append, List.length_map,
        Finset.card_product, Finset.card_product, Finset.card_singleton, hcard]
      ring

theorem avgSim_eq_specMean {M : ℕ → ℕ → ℝ} (hsym : ∀ i j, M i j = M j i)
    {mem : List ℕ} (hnd : mem.Nodup) : avgSim M mem = specMean M mem := by
  obtain ⟨hs, hc⟩ := offDiag_sum_card M hsym mem hnd
  unfold avgSim specMean
  dsimp only
  by_cases h : (pairsList mem).map (fun p => M p.1 p.2) = []
  · rw [if_pos h]
    have hlen : (pairsList mem).length = 0 := by
      have := congrArg List.length h
      rw [List.length_map] at this
      simpa using this
    have hc0 : mem.toFinset.offDiag.card = 0 := by omega
    rw [hc0]
    norm_num
  · rw [if_neg h]
    have hlenpos : 0 < (pairsList mem).length := by
      rcases Nat.eq_zero_or_pos (pairsList mem).length with h0 | h0
      · exact absurd (by rw [List.length_eq_zero.mp h0]; rfl) h
      · exact h0
    rw [hs, hc, List.length_map]
    push_cast
    rw [mul_div_mul_left _ _ (two_ne_zero)]
theorem three_pass_props (n : ℕ) (M : ℕ → ℕ → ℝ) (issues : List Issue)
    (s1 s2 s3 : PassState)
    (h1 : s1 = tierPass n M (fun v => 0.8 ≤ v) ∅ "High" 0.8
      "high_similarity_group_" issues ⟨[], 1, ∅⟩)
    (h2 : s2 = tierPass n M (fun v => 0.5 ≤ v ∧ v < 0.8) s1.processed "Medium" 0.5
      "medium_similarity_group_" issues ⟨s1.groups, s1.counter, ∅⟩)
    (h3 : s3 = tierPass n M (fun v => 0.3 ≤ v ∧ v < 0.5) (s1.processed ∪ s2.processed)
      "Low" 0.3 "low_similarity_group_" issues ⟨s2.groups, s2.counter, ∅⟩) :
    List.Pairwise (fun g h => ∀ m ∈ g.2.members, m ∉ h.2.members) s3.groups ∧
      ∀ g ∈ s3.groups,
        g.2.members.Nodup ∧ 2 ≤ g.2.members.length ∧
        (∀ m ∈ g.2.members, m < n) ∧
        g.2.avg_similarity = avgSim M g.2.members ∧
        ((g.2.similarity_level = "High" ∧ g.2.threshold_used = 0.8) ∨
         (g.2.similarity_level = "Medium" ∧ g.2.threshold_used = 0.5) ∨
         (g.2.similarity_level = "Low" ∧ g.2.threshold_used = 0.3)) := by
  have I1 : PassInv n M ∅ "High" 0.8 [] s1 := by
    rw [h1]
    exact tierPass_spec n M _ ∅ "High" 0.8 "high_similarity_group_" issues [] 1
  obtain ⟨n1, hg1, good1, pw1, _, pn1⟩ := I1
  have I2 : PassInv n M s1.processed "Medium" 0.5 s1.groups s2 := by
    rw [h2]
    exact tierPass_spec n M _ s1.processed "Medium" 0.5 "medium_similarity_group_"
      issues s1.groups s1.counter
  obtain ⟨n2, hg2, good2, pw2, pb2, pn2⟩ := I2
  have I3 : PassInv n M (s1.processed ∪ s2.processed) "Low" 0.3 s2.groups s3 := by
    rw [h3]
    exact tierPass_spec n M _ (s1.processed ∪ s2.processed) "Low" 0.3
      "low_similarity_group_" issues s2.groups s2.counter
  obtain ⟨n3, hg3, good3, pw3, _, _⟩ := I3
  have hgroups : s3.groups = (n1 ++ n2) ++ n3 := by
    rw [hg3, hg2, hg1, List.nil_append]
  rw [hgroups]
  constructor
  · rw [List.pairwise_append]
    refine ⟨?_, pw3, ?_⟩
    · rw [List.pairwise_append]
      refine ⟨pw1, pw2, ?_⟩
      intro g1 hga g2 hgb m hm hm2
      have hin1 : m ∈ s1.processed := (good1 g1 hga).2.2.2.2.1 (List.mem_toFinset.mpr hm)
      exact (good2 g2 hgb).2.2.2.1 m hm2 hin1
    · intro g12 hg12 g3 hgc m hm hm2
      have hnb3 : m ∉ s1.processed ∪ s2.processed := (good3 g3 hgc).2.2.2.1 m hm2
      rcases List.mem_append.mp hg12 with hga | hgb
      · have hin1 : m ∈ s1.processed := (good1 g12 hga).2.2.2.2.1 (List.mem_toFinset.mpr hm)
        exact hnb3 (Finset.mem_union_left _ hin1)
      · have hin2 : m ∈ s2.processed := (good2 g12 hgb).2.2.2.2.1 (List.mem_toFinset.mpr hm)
        exact hnb3 (Finset.mem_union_right _ hin2)
  · intro g hg
    rcases List.mem_append.mp hg with hg12 | hgc
    · rcases List.mem_append.mp hg12 with hga | hgb
      · obtain ⟨q1, q2, q3, _, _, q6, q7, q8⟩ := good1 g hga
        exact ⟨q1, q2, q3, q8, Or.inl ⟨q6, q7⟩⟩
      · obtain ⟨q1, q2, q3, _, _, q6, q7, q8⟩ := good2 g hgb
        exact ⟨q1, q2, q3, q8, Or.inr (Or.inl ⟨q6, q7⟩)⟩
    · obtain ⟨q1, q2, q3, _, _, q6, q7, q8⟩ := good3 g hgc
      exact ⟨q1, q2, q3, q8, Or.inr (Or.inr ⟨q6, q7⟩)⟩

/-- Combined structural facts about `find_similar_issues` output:
disjoint membership, distinct members, group size at least two,
members in range, the stored average, and the level/threshold pairing. -/
theorem find_similar_issues_master (issues : List Issue) :
    List.Pairwise (fun g h => ∀ m ∈ g.2.members, m ∉ h.2.members)
      (find_similar_issues issues) ∧
      ∀ g ∈ find_similar_issues issues,
        g.2.members.Nodup ∧ 2 ≤ g.2.members.length ∧
        (∀ m ∈ g.2.members, m < issues.length) ∧
        g.2.avg_similarity = avgSim (simMatrix issues) g.2.members ∧
        ((g.2.similarity_level = "High" ∧ g.2.threshold_used = 0.8) ∨
         (g.2.similarity_level = "Medium" ∧ g.2.threshold_used = 0.5) ∨
         (g.2.similarity_level = "Low" ∧ g.2.threshold_used = 0.3)) := by
  cases issues with
  | nil =>
    have he : find_similar_issues [] = [] := rfl
    rw [he]
    exact ⟨List.Pairwise.nil, by simp⟩
  | cons a l =>
    exact three_pass_props (a :: l).length (simMatrix (a :: l)) (a :: l) _ _ _ rfl rfl rfl
/-! ### Claim theorems: grouping -/

/-- C2: over any issue list, the groups returned by
`find_similar_issues` have pairwise disjoint membership — an issue
index claimed by one group (in any tier) is never claimed by another
group of the same or a later tier. -/
theorem find_similar_issues_disjoint_groups (issues : List Issue) :
    List.Pairwise (fun g h => ∀ m ∈ g.2.members, m ∉ h.2.members)
      (find_similar_issues issues) :=
  (find_similar_issues_master issues).1

/-- C7: every emitted group has at least two members (the anchor plus
at least one match); and an anchor `i` that is unclaimed but finds no
in-range match in its tier is skipped entirely — the anchor step
returns the pass state unchanged, so no singleton group is emitted, `i`
is not marked processed in this tier, and (the blocked sets of the
later passes being built from the processed sets) it remains eligible
for lower tiers. -/
theorem find_similar_issues_no_singletons (issues : List Issue)
    (n : ℕ) (M : ℕ → ℕ → ℝ) (inTier : ℝ → Prop) (blocked : Finset ℕ)
    (level : String) (thr : ℝ) (stem : String) (iss : List Issue)
    (st : PassState) (i : ℕ)
    (h1 : i ∉ st.processed) (h2 : i ∉ blocked)
    (h3 : ∀ j, j < n → i < j → j ∉ st.processed → j ∉ blocked → ¬inTier (M i j)) :
    (find_similar_issues issues).Forall (fun g => 2 ≤ g.2.members.length) ∧
      tierStep n M inTier blocked level thr stem iss st i = st := by
  constructor
  · rw [List.forall_iff_forall_mem]
    intro g hg
    exact ((find_similar_issues_master issues).2 g hg).2.1
  · refine tierStep_noMatch h1 h2 ?_
    refine List.eq_nil_iff_forall_not_mem.mpr ?_
    intro j hj
    obtain ⟨q1, q2, q3, q4, q5⟩ := mem_tierCands.mp hj
    exact h3 j q1 q2 q3 q4 q5

/-- Witness for C7 at concrete inputs: the empty issue list, and an
anchor over an empty index range with nothing processed or blocked. -/
theorem find_similar_issues_no_singletons_witness :
    (0 ∉ (⟨[], 1, ∅⟩ : PassState).processed) ∧ (0 ∉ (∅ : Finset ℕ)) ∧
      (∀ j, j < 0 → 0 < j → j ∉ (⟨[], 1, ∅⟩ : PassState).processed →
        j ∉ (∅ : Finset ℕ) → ¬((fun _ : ℝ => False) ((fun _ _ : ℕ => (0 : ℝ)) 0 j))) ∧
      ((find_similar_issues []).Forall (fun g => 2 ≤ g.2.members.length) ∧
        tierStep 0 (fun _ _ => 0) (fun _ => False) ∅ "High" 0.8 "g" [] ⟨[], 1, ∅⟩ 0 =
          ⟨[], 1, ∅⟩) :=
  ⟨by simp, by simp, by simp,
    find_similar_issues_no_singletons [] 0 (fun _ _ => 0) (fun _ => False) ∅ "High" 0.8
      "g" [] ⟨[], 1, ∅⟩ 0 (by simp) (by simp) (by simp)⟩

/-- C8: for every emitted group, `avg_similarity` is the arithmetic
mean of the similarity-matrix entries over the unordered pairs of
distinct members (the matrix is fixed over the whole run, so the matrix
at group-formation time is the matrix of the run), and `threshold_used`
is the lower bound of the group's tier: 0.8 for High, 0.5 for Medium,
0.3 for Low. -/
theorem find_similar_issues_avg_and_threshold (issues : List Issue) :
    (find_similar_issues issues).Forall (fun g =>
      g.2.avg_similarity = specMean (simMatrix issues) g.2.members ∧
      ((g.2.similarity_level = "High" ∧ g.2.threshold_used = 0.8) ∨
       (g.2.similarity_level = "Medium" ∧ g.2.threshold_used = 0.5) ∨
       (g.2.similarity_level = "Low" ∧ g.2.threshold_used = 0.3))) := by
  rw [List.forall_iff_forall_mem]
  intro g hg
  obtain ⟨hnd, _, _, havg, hlt⟩ := (find_similar_issues_master issues).2 g hg
  refine ⟨?_, hlt⟩
  rw [havg]
  exact avgSim_eq_specMean (simMatrix_symm issues) hnd

end SimDetect
